import Mathlib

/-!
# bcm2cfg nonvol2: typed binary serialization of nonvolatile configuration records

A shallow embedding of `src/nonvol2.h` (namespace `bcm2cfg`): the primitive numeric
codec `nv_num`, the enum / bitmask overlay `nv_enum_bitmask`, the arrays and lists of
`nv_array_generic`, the address type `nv_ip` and `nv_version`, followed by theorems about
them.

Conventions of the embedding

* a C++ integer of storage type `T` is an `Int` inside the range of `T`; conversions to
  `T` are written `T.wrap` (two's complement);
* `std::string` is `String`;
* an exception is an `Except` error (or an explicit outcome constructor), and state that
  was mutated before the throw is returned next to it;
* a `std::istream` is its unread bytes or the absorbing failed state, a `std::ostream`
  is the list of bytes written so far.
-/

namespace bcm2cfg

/-! ## Storage types -/

/-- The integer storage type `T` of `nv_num<T, ...>`: `sizeof(T)` and signedness. -/
structure NumType where
  bytes : Nat
  signed : Bool
deriving DecidableEq, Repr

namespace NumType

/-- Width `8 * sizeof(T)` in bits. -/
def bits (T : NumType) : Nat := 8 * T.bytes

/-- The constant `std::numeric_limits<T>::min()`. -/
def limits_min (T : NumType) : Int :=
  if T.signed then -((2 : Int) ^ (T.bits - 1)) else 0

/-- The constant `std::numeric_limits<T>::max()`. -/
def limits_max (T : NumType) : Int :=
  if T.signed then (2 : Int) ^ (T.bits - 1) - 1 else (2 : Int) ^ T.bits - 1

/-- The object representation of a value: its two's complement bit pattern. -/
def toRaw (T : NumType) (v : Int) : Nat := (v % (2 : Int) ^ T.bits).toNat

/-- The value denoted by a bit pattern below `2 ^ bits`. -/
def ofRaw (T : NumType) (u : Nat) : Int :=
  if T.signed = true ∧ 2 ^ (T.bits - 1) ≤ u then (u : Int) - (2 : Int) ^ T.bits else (u : Int)

/-- Integral conversion to `T` (the initialisation `T raw = num`). -/
def wrap (T : NumType) (v : Int) : Int := T.ofRaw (T.toRaw v)

/-- Membership in the representable range of `T`. -/
def inRange (T : NumType) (v : Int) : Prop := T.limits_min ≤ v ∧ v ≤ T.limits_max

instance (T : NumType) (v : Int) : Decidable (T.inRange v) := by
  unfold inRange; infer_instance

end NumType

def uint8_t : NumType := ⟨1, false⟩
def int8_t : NumType := ⟨1, true⟩
def uint16_t : NumType := ⟨2, false⟩
def int16_t : NumType := ⟨2, true⟩
def uint32_t : NumType := ⟨4, false⟩
def int32_t : NumType := ⟨4, true⟩
def uint64_t : NumType := ⟨8, false⟩
def int64_t : NumType := ⟨8, true⟩

/-! ## Text helpers -/

/-- The standard `std::to_string` on an integer: decimal digits, `-` before a negative
value. -/
def std_to_string (v : Int) : String :=
  if v < 0 then "-" ++ Nat.repr v.natAbs else Nat.repr v.natAbs

/-- Value of one digit character of a numeral. -/
def digit_value (c : Char) : Option Nat :=
  if '0'.toNat ≤ c.toNat ∧ c.toNat ≤ '9'.toNat then some (c.toNat - '0'.toNat)
  else if 'a'.toNat ≤ c.toNat ∧ c.toNat ≤ 'f'.toNat then some (c.toNat - 'a'.toNat + 10)
  else if 'A'.toNat ≤ c.toNat ∧ c.toNat ≤ 'F'.toNat then some (c.toNat - 'A'.toNat + 10)
  else none

/-- Reads digits of the given radix left to right onto an accumulator; any other
character is a failure. -/
def lex_digits (base : Nat) (acc : Nat) : List Char → Option Nat
  | [] => some acc
  | c :: cs =>
    match digit_value c with
    | some d => if d < base then lex_digits base (acc * base + d) cs else none
    | none => none

/-- A non-empty digit string of the given radix. -/
def lex_unsigned (base : Nat) (cs : List Char) : Option Nat :=
  match cs with
  | [] => none
  | _ :: _ => lex_digits base 0 cs

/-- Radix detection of `lexical_cast` with base `0`: the marker `0x` selects 16,
anything else is decimal. -/
def lex_radix (base : Nat) (cs : List Char) : Nat × List Char :=
  if base = 0 then
    match cs with
    | '0' :: 'x' :: rest => (16, rest)
    | _ => (10, cs)
  else (base, cs)

/-- Splits an optional leading `-` off a numeral. -/
def lex_sign : List Char → Bool × List Char
  | '-' :: rest => (true, rest)
  | cs => (false, cs)

/-- Modelled from the spec: `bcm2dump::lexical_cast<T>(str, base)` of `util.h`, which is
not part of the sources at hand. The spec says that numeric text is "decimal or (with a
leading radix marker) hexadecimal text"; base `0` selects the radix from the marker. An
optional `-` sign precedes the numeral. `none` stands for `bad_lexical_cast`, which also
covers a numeral that the storage type `T` cannot represent. -/
def lexical_cast (T : NumType) (str : String) (base : Nat) : Option Int :=
  let sb := lex_sign str.data
  let rb := lex_radix base sb.2
  match lex_unsigned rb.1 rb.2 with
  | none => none
  | some n =>
    let v : Int := if sb.1 then -(n : Int) else (n : Int)
    if T.limits_min ≤ v ∧ v ≤ T.limits_max then some v else none

/-! ## Byte streams -/

/-- Little-endian bytes of a bit pattern, `w` of them. -/
def bytes_le : Nat → Nat → List Nat
  | 0, _ => []
  | w + 1, u => u % 256 :: bytes_le w (u / 256)

/-- The bit pattern denoted by little-endian bytes. -/
def of_bytes_le : List Nat → Nat
  | [] => 0
  | b :: bs => b + 256 * of_bytes_le bs

/-- Modelled from the spec: the byte-order helpers `bcm2dump::h_to_be` / `h_to_le` of
`util.h`, which is not part of the sources at hand ("fixed-width integer read/write with
selectable endianness"). The bytes that `os.write(&raw, sizeof(raw))` emits after them are
the object representation, most significant byte first when `BigEndian`, least
significant first otherwise. -/
def wire_encode (T : NumType) (BigEndian : Bool) (v : Int) : List Nat :=
  if BigEndian then (bytes_le T.bytes (T.toRaw v)).reverse else bytes_le T.bytes (T.toRaw v)

/-- Modelled from the spec: the byte-order helpers `bcm2dump::be_to_h` / `le_to_h` of
`util.h`, which is not part of the sources at hand ("converts from wire byte order"). The
value that `sizeof(T)` wire bytes give after them. -/
def wire_decode (T : NumType) (BigEndian : Bool) (bs : List Nat) : Int :=
  T.ofRaw (of_bytes_le (if BigEndian then bs.reverse else bs))

/-- A `std::istream`: the bytes not yet consumed, or the failed state, in which every
further read fails (nothing in this code clears the state). -/
inductive istream where
  | good (data : List Nat)
  | failed
deriving DecidableEq, Repr

namespace istream

/-- Number of bytes that can still be read. -/
def remaining : istream → Nat
  | good d => d.length
  | failed => 0

/-- The conversion `!is`. -/
def fail : istream → Bool
  | good _ => false
  | failed => true

/-- The call `is.read(buf, n)`: delivers `n` bytes, or consumes what is left and fails. -/
def read (is : istream) (n : Nat) : Option (List Nat) × istream :=
  match is with
  | good d => if n ≤ d.length then (some (d.take n), good (d.drop n)) else (none, failed)
  | failed => (none, failed)

end istream

/-- A `std::ostream`: the bytes written so far. -/
abbrev ostream := List Nat

instance instDecidableEqExcept {ε α : Type} [DecidableEq ε] [DecidableEq α] :
    DecidableEq (Except ε α) := fun a b =>
  match a, b with
  | Except.ok x, Except.ok y =>
    if h : x = y then isTrue (by rw [h]) else isFalse (fun h' => h (Except.ok.inj h'))
  | Except.error x, Except.error y =>
    if h : x = y then isTrue (by rw [h]) else isFalse (fun h' => h (Except.error.inj h'))
  | Except.ok _, Except.error _ => isFalse (fun h => by cases h)
  | Except.error _, Except.ok _ => isFalse (fun h => by cases h)

/-! ## nv_num -/

/-- The template arguments of `nv_num<T, BigEndian, Min, Max>`. -/
structure NumParams where
  T : NumType
  BigEndian : Bool
  Min : Int
  Max : Int
deriving DecidableEq, Repr

/-- Well-formed template arguments: a storage type of positive width, and `Min`, `Max`
values of that type (they are template arguments of type `T`). -/
def NumParams.wf (P : NumParams) : Prop :=
  0 < P.T.bytes ∧ P.T.inRange P.Min ∧ P.T.inRange P.Max

instance (P : NumParams) : Decidable P.wf := by
  unfold NumParams.wf; infer_instance

/-- The unconstrained instance `nv_num<T, BigEndian>`. -/
def NumParams.plain (T : NumType) (be : Bool) : NumParams :=
  ⟨T, be, T.limits_min, T.limits_max⟩

/-- Instance `nv_u8`. -/
def nv_u8 : NumParams := NumParams.plain uint8_t false
/-- Instance `nv_i8`. -/
def nv_i8 : NumParams := NumParams.plain int8_t false
/-- Instance `nv_u16` (big endian). -/
def nv_u16 : NumParams := NumParams.plain uint16_t true
/-- Instance `nv_u32` (big endian). -/
def nv_u32 : NumParams := NumParams.plain uint32_t true
/-- Instance `nv_u64` (big endian). -/
def nv_u64 : NumParams := NumParams.plain uint64_t true
/-- Instance `nv_i32` (big endian). -/
def nv_i32 : NumParams := NumParams.plain int32_t true
/-- Instance `nv_u16le`. -/
def nv_u16le : NumParams := NumParams.plain uint16_t false
/-- Instance `nv_u8_m<Max>`. -/
def nv_u8_m (Max : Int) : NumParams := ⟨uint8_t, false, uint8_t.limits_min, Max⟩

/-- The data members of an `nv_num` object: `m_val`, `m_hex` and the inherited `m_set`. -/
structure nv_num where
  m_val : Int
  m_hex : Bool
  m_set : Bool
deriving DecidableEq, Repr

namespace nv_num

/-- The constructor `nv_num(bool hex = false)`. -/
def mk_default (hex : Bool) : nv_num := ⟨0, hex, false⟩

/-- The constructor `nv_num(T val, bool hex)`. -/
def mk_val (val : Int) (hex : Bool) : nv_num := ⟨val, hex, true⟩

/-- The accessor `is_set()`. -/
def is_set (x : nv_num) : Bool := x.m_set

/-- The accessor `num()`. -/
def num (x : nv_num) : Int := x.m_val

/-- The method `to_string(level, pretty)`; `to_hex` is `bcm2dump::to_hex` of `util.h`,
taken as a parameter. -/
def to_string (to_hex : Int → String) (P : NumParams) (x : nv_num) (pretty : Bool) : String :=
  let str := if !x.m_hex then std_to_string x.m_val else "0x" ++ to_hex x.m_val
  if pretty = true ∧ (x.m_val < P.Min ∨ x.m_val > P.Max) then str ++ " (out of range)" else str

/-- The method `to_str()`, that is `to_string(0, false)`. -/
def to_str (to_hex : Int → String) (P : NumParams) (x : nv_num) : String :=
  to_string to_hex P x false

/-- The method `parse(str)`: the new object and the returned flag. -/
def parse (P : NumParams) (x : nv_num) (str : String) : nv_num × Bool :=
  match lexical_cast P.T str 0 with
  | some val =>
    if val < P.Min ∨ val > P.Max then (x, false)
    else ({ x with m_val := val, m_set := true }, true)
  | none => (x, false)

/-- The static `write<U>(os, num)`. Inside the class `max` names the member
`static constexpr T max = Max`, so the guard compares with the configured maximum. -/
def write_num (P : NumParams) (os : ostream) (num : Int) : Except String ostream :=
  if num > P.Max then
    Except.error "value exceeds maximum of target type"
  else
    Except.ok (os ++ wire_encode P.T P.BigEndian (P.T.wrap num))

/-- The method `write(os)`, that is `write(os, m_val)`. -/
def write (P : NumParams) (x : nv_num) (os : ostream) : Except String ostream :=
  write_num P os x.m_val

/-- The static `read<U>(in, num)`: the stream after the call and the new `num`. -/
def read_num (P : NumParams) (is : istream) (num : Int) : istream × Int :=
  match is.read P.T.bytes with
  | (some bs, is') => (is', wire_decode P.T P.BigEndian bs)
  | (none, is') => (is', num)

/-- The method `read(is)`: `m_set` is raised when the stream is still good. -/
def read (P : NumParams) (x : nv_num) (is : istream) : nv_num × istream :=
  let r := read_num P is x.m_val
  if r.1.fail then ({ x with m_val := r.2 }, r.1)
  else ({ x with m_val := r.2, m_set := true }, r.1)

/-- The method `bytes()`. -/
def bytes (P : NumParams) : Nat := P.T.bytes

end nv_num

/-! ## nv_enum_bitmask, nv_enum, nv_bitmask

An `Option` result of the functions below is `none` exactly when the C++ evaluation has
undefined behaviour: a shift `1 << i` of the `int` constant 1 by 32 or more (or by a
negative count), or a `std::vector` subscript outside the vector. -/

namespace NumType

/-- The C++ `a | b` on two values of type `T`, stored back into a `T`. -/
def bit_or (T : NumType) (a b : Int) : Int := T.ofRaw (T.toRaw a ||| T.toRaw b)

/-- The C++ `a & b` on two values of type `T`. -/
def bit_and (T : NumType) (a b : Int) : Int := T.ofRaw (T.toRaw a &&& T.toRaw b)

/-- The C++ `a & ~b` on two values of type `T`, stored back into a `T`. -/
def bit_and_not (T : NumType) (a b : Int) : Int :=
  T.ofRaw (T.toRaw a &&& (2 ^ T.bits - 1 - T.toRaw b))

end NumType

/-- The C++ expression `1 << i` on the 32-bit `int` constant 1: the power of two for
counts up to 30, `INT_MIN` for 31, undefined otherwise. -/
def shl_one (i : Int) : Option Int :=
  if 0 ≤ i ∧ i < 31 then some ((2 : Int) ^ i.toNat)
  else if i = 31 then some (-((2 : Int) ^ 31))
  else none

/-- The data members of an `nv_enum_bitmask<T, B>` object: the base `nv_num` subobject,
`m_name`, `m_map` (a `std::map`, listed in ascending key order) and `m_vec`. -/
structure nv_enum_bitmask where
  base : nv_num
  m_name : String
  m_map : List (Int × String)
  m_vec : List String
deriving DecidableEq, Repr

namespace nv_enum_bitmask

/-- The private constructor `nv_enum_bitmask(name, n)` followed by the assignment of the
table in the delegating constructors; `B` is the bitmask template flag. -/
def construct (P : NumParams) (B : Bool) (name : String) (vec : List String)
    (map : List (Int × String)) (n : Nat) : Except String nv_enum_bitmask :=
  if (n : Int) > P.T.limits_max then
    Except.error "number of enum elements exceeds maximum"
  else
    Except.ok
      { base := nv_num.mk_default false,
        m_name := if name ≠ "" then name else (if B then "bitmask" else "enum"),
        m_map := map,
        m_vec := vec }

/-- The constructor `nv_enum_bitmask(name, const valvec& vals)`. -/
def of_vec (P : NumParams) (B : Bool) (name : String) (vals : List String) :
    Except String nv_enum_bitmask :=
  construct P B name vals [] vals.length

/-- The constructor `nv_enum_bitmask(name, const valmap& vals)`. -/
def of_map (P : NumParams) (B : Bool) (name : String) (vals : List (Int × String)) :
    Except String nv_enum_bitmask :=
  construct P B name [] vals vals.length

/-- The constructor `nv_enum_bitmask(name)`. -/
def of_name (P : NumParams) (B : Bool) (name : String) : Except String nv_enum_bitmask :=
  construct P B name [] [] 0

/-- The object after `T::m_val = v; T::m_set = true`. -/
def assign (e : nv_enum_bitmask) (v : Int) : nv_enum_bitmask :=
  { e with base := { e.base with m_val := v, m_set := true } }

/-- First index, counted from `i`, at which the vector holds `str`. -/
def vec_search (str : String) : List String → Nat → Option Nat
  | [], _ => none
  | s :: rest, i => if s = str then some i else vec_search str rest (i + 1)

/-- First key, in iteration order, whose mapped name is `str`. -/
def map_search (str : String) : List (Int × String) → Option Int
  | [] => none
  | kv :: rest => if kv.2 = str then some kv.1 else map_search str rest

/-- The call `m_map.find(key)`. -/
def map_find (key : Int) : List (Int × String) → Option String
  | [] => none
  | kv :: rest => if kv.1 = key then some kv.2 else map_find key rest

/-- The method `str_to_num(str, num, bitmask)`. The result is `some (some n)` when it
returns true having assigned `n` to `num`, `some none` when it returns false (`num` is
not touched), and `none` when the shift is undefined. The first loop runs over the
indices below `num_type(m_vec.size())`. -/
def str_to_num (P : NumParams) (e : nv_enum_bitmask) (str : String) (bitmask : Bool) :
    Option (Option Int) :=
  match vec_search str (e.m_vec.take (P.T.wrap e.m_vec.length).toNat) 0 with
  | some i =>
    if bitmask then
      match shl_one i with
      | some one => some (some (P.T.wrap one))
      | none => none
    else some (some (i : Int))
  | none =>
    match map_search str e.m_map with
    | some k => some (some k)
    | none => some (lexical_cast P.T str 0)

/-- The method `num_to_str(num, bitmask, pretty)`. -/
def num_to_str (P : NumParams) (e : nv_enum_bitmask) (num : Int) (bitmask : Bool)
    (_pretty : Bool) : Option String :=
  if e.m_map ≠ [] then
    match (if bitmask then shl_one num else some num) with
    | some key =>
      match map_find (P.T.wrap key) e.m_map with
      | some s => some s
      | none => some ""
    | none => none
  else if e.m_vec ≠ [] ∧ num < P.T.wrap e.m_vec.length then
    if 0 ≤ num then e.m_vec[num.toNat]? else none
  else some ""

end nv_enum_bitmask

namespace nv_enum

/-- The constructor `nv_enum()`. -/
def mk_default (P : NumParams) : Except String nv_enum_bitmask :=
  nv_enum_bitmask.of_name P false ""

/-- The constructor `nv_enum(name, const valvec& vals)`. -/
def of_vec (P : NumParams) (name : String) (vals : List String) :
    Except String nv_enum_bitmask :=
  nv_enum_bitmask.of_vec P false name vals

/-- The constructor `nv_enum(name, const valmap& vals)`. -/
def of_map (P : NumParams) (name : String) (vals : List (Int × String)) :
    Except String nv_enum_bitmask :=
  nv_enum_bitmask.of_map P false name vals

/-- The method `nv_enum::to_string(level, pretty)`. -/
def to_string (P : NumParams) (e : nv_enum_bitmask) (pretty : Bool) : Option String :=
  match nv_enum_bitmask.num_to_str P e e.base.m_val false pretty with
  | some str =>
    some (if str ≠ "" then str else e.m_name ++ "(" ++ std_to_string e.base.num ++ ")")
  | none => none

/-- The method `nv_enum::parse(str)`. -/
def parse (P : NumParams) (e : nv_enum_bitmask) (str : String) :
    Option (nv_enum_bitmask × Bool) :=
  match nv_enum_bitmask.str_to_num P e str false with
  | some (some n) => some (e.assign n, true)
  | some none => some (e, false)
  | none => none

end nv_enum

namespace nv_bitmask

/-- The constructor `nv_bitmask(name = "")`. -/
def of_name (P : NumParams) (name : String) : Except String nv_enum_bitmask :=
  nv_enum_bitmask.of_name P true (if name ≠ "" then name else "bitmask")

/-- The constructor `nv_bitmask(name, const valvec& vals)`; `nv_bitmask(vals)` passes the
empty name. -/
def of_vec (P : NumParams) (name : String) (vals : List String) :
    Except String nv_enum_bitmask :=
  nv_enum_bitmask.of_vec P true name vals

/-- The constructor `nv_bitmask(name, const valmap& vals)`; `nv_bitmask(vals)` passes the
empty name. -/
def of_map (P : NumParams) (name : String) (vals : List (Int × String)) :
    Except String nv_enum_bitmask :=
  nv_enum_bitmask.of_map P true name vals

/-- One round of the loop of `nv_bitmask::to_string` for the index `i`, on the
accumulated string `ret`. -/
def to_string_step (to_hex : Int → String) (P : NumParams) (e : nv_enum_bitmask)
    (pretty : Bool) (ret : String) (i : Nat) : Option String :=
  match shl_one i with
  | none => none
  | some one =>
    let flag := P.T.wrap one
    if P.T.bit_and e.base.m_val flag ≠ 0 then
      let ret1 := if ret ≠ "" then ret ++ (if pretty then " | " else "|") else ret
      match nv_enum_bitmask.num_to_str P e (P.T.wrap i) true pretty with
      | none => none
      | some str => some (ret1 ++ (if str = "" then "0x" ++ to_hex flag else str))
    else some ret

/-- The loop `for (size_t i = 0; i != sizeof(num_type) * 8; ++i)` over the listed
indices. -/
def to_string_loop (to_hex : Int → String) (P : NumParams) (e : nv_enum_bitmask)
    (pretty : Bool) : List Nat → String → Option String
  | [], ret => some ret
  | i :: rest, ret =>
    match to_string_step to_hex P e pretty ret i with
    | none => none
    | some ret1 => to_string_loop to_hex P e pretty rest ret1

/-- The method `nv_bitmask::to_string(level, pretty)`. -/
def to_string (to_hex : Int → String) (P : NumParams) (e : nv_enum_bitmask)
    (pretty : Bool) : Option String :=
  if e.base.m_val = 0 then some ("0x" ++ to_hex e.base.m_val)
  else to_string_loop to_hex P e pretty (List.range (P.T.bytes * 8)) ""

/-- The method `to_str()` of a bitmask. -/
def to_str (to_hex : Int → String) (P : NumParams) (e : nv_enum_bitmask) : Option String :=
  to_string to_hex P e false

/-- The method `nv_bitmask::parse(str)`. -/
def parse (P : NumParams) (e : nv_enum_bitmask) (str : String) :
    Option (nv_enum_bitmask × Bool) :=
  match str.data with
  | [] => some (e, false)
  | c :: rest =>
    if c = '+' ∨ c = '-' then
      match nv_enum_bitmask.str_to_num P e (String.mk rest) true with
      | none => none
      | some none => some (e, false)
      | some (some n) =>
        if c = '+' then some (e.assign (P.T.bit_or e.base.m_val n), true)
        else some (e.assign (P.T.bit_and_not e.base.m_val n), true)
    else
      match nv_enum_bitmask.str_to_num P e str true with
      | none => none
      | some none => some (e, false)
      | some (some n) => some (e.assign n, true)

end nv_bitmask

/-! ## nv_compound, nv_array_generic -/

/-- The exceptions that leave `set`, `read` and the constructors: `user_error` from
`parse_checked` (invalid text), the hard error of `get` on an unknown name,
`user_error("maximum list size reached")`, `std::invalid_argument`, and the hard read
failure of a compound that runs out of data. -/
inductive nv_error where
  | invalid_text
  | unknown_field
  | capacity_exceeded
  | invalid_argument
  | short_read
deriving DecidableEq, Repr

/-- The operations of an element type `T` that an array uses: `std::make_shared<T>()`
and the virtual methods of `nv_val`. -/
structure nv_val_ops (α : Type) where
  make : α
  parse : α → String → α × Bool
  read : α → istream → α × istream
  write : α → ostream → Except String ostream
  bytes : α → Nat
  is_set : α → Bool
  is_disabled : α → Bool

/-- The element type `nv_num<T, BigEndian, Min, Max>`. The embedding of `nv_num` carries
no `m_disabled` member: it describes objects on which `disable()` has not been called,
so `is_disabled()` is false. -/
def nv_num.ops (P : NumParams) : nv_val_ops nv_num :=
  { make := nv_num.mk_default false,
    parse := nv_num.parse P,
    read := nv_num.read P,
    write := nv_num.write P,
    bytes := fun _ => nv_num.bytes P,
    is_set := nv_num.is_set,
    is_disabled := fun _ => false }

namespace nv_compound

/-- Modelled from the spec: `nv_compound::find(name)` of `nonvol2.cc`, which is not part
of the sources at hand: the part of that name, in definition order. -/
def find {α : Type} (parts : List (String × α)) (name : String) : Option α :=
  match parts with
  | [] => none
  | p :: rest => if p.1 = name then some p.2 else find rest name

/-- Modelled from the spec: `nv_compound::set(name, val)` of `nonvol2.cc`, which is not
part of the sources at hand, for a path that is a single part name: an unknown name is
the hard error of `get`; otherwise the part takes `parse_checked(val)`, which throws the
invalid-text error when `parse` returns false. The parts after the call are returned
next to the outcome. -/
def set {α : Type} (E : nv_val_ops α) (parts : List (String × α)) (name val : String) :
    List (String × α) × Except nv_error Unit :=
  match parts with
  | [] => ([], Except.error nv_error.unknown_field)
  | p :: rest =>
    if p.1 = name then
      ((p.1, (E.parse p.2 val).1) :: rest,
        if (E.parse p.2 val).2 then Except.ok () else Except.error nv_error.invalid_text)
    else ((p :: (set E rest name val).1), (set E rest name val).2)

/-- Modelled from the spec: `nv_compound::init(force)` of `nonvol2.cc`, which is not part
of the sources at hand: "builds the parts list from `definition()` exactly once unless
`force`". The class has no member that records that `init` has run, so the parts list
itself is the record: an empty list is built from `definition()`. -/
def init {α : Type} (parts definition : List (String × α)) (force : Bool) :
    List (String × α) :=
  if force = true ∨ parts.isEmpty = true then definition else parts

/-- The members of a compound after `nv_compound::read`, the stream, and the hard error
if one was raised. -/
structure read_state (α : Type) where
  parts : List (String × α)
  m_bytes : Nat
  m_set : Bool
  is : istream
  error : Option nv_error

/-- Modelled from the spec: the loop of `nv_compound::read` of `nonvol2.cc`, which is not
part of the sources at hand: "reads each part's value in definition order; if the
compound has a nonzero declared width, stop early once the cumulative consumed size would
exceed it, and record the actually-consumed size as the observed size"; a compound that
tolerates short data (`m_partial`) stops when the stream runs out, "remaining parts stay
unset", any other compound "treats stream exhaustion before completion as a hard read
failure". A compound of which a part has been read is set. -/
def read_parts {α : Type} (E : nv_val_ops α) (tolerant : Bool) (width : Nat) :
    List (String × α) → Nat → Bool → istream → read_state α
  | [], b, st, is => ⟨[], b, st, is, none⟩
  | p :: rest, b, st, is =>
    if width ≠ 0 ∧ b + E.bytes p.2 > width then ⟨p :: rest, b, st, is, none⟩
    else if (E.read p.2 is).2.fail = true then
      ⟨(p.1, (E.read p.2 is).1) :: rest, b, st, (E.read p.2 is).2,
        if tolerant then none else some nv_error.short_read⟩
    else
      { read_parts E tolerant width rest (b + E.bytes (E.read p.2 is).1) true
          (E.read p.2 is).2 with
        parts := (p.1, (E.read p.2 is).1) ::
          (read_parts E tolerant width rest (b + E.bytes (E.read p.2 is).1) true
            (E.read p.2 is).2).parts }

/-- Modelled from the spec: `nv_compound::read(is)` of `nonvol2.cc`, which is not part of
the sources at hand: it "initializes parts, then reads each part's value in definition
order". -/
def read {α : Type} (E : nv_val_ops α) (tolerant : Bool) (width : Nat)
    (definition parts : List (String × α)) (m_set : Bool) (is : istream) : read_state α :=
  read_parts E tolerant width (init parts definition false) 0 m_set is

/-- Modelled from the spec: `nv_compound::write(os)` of `nonvol2.cc`, which is not part
of the sources at hand: it "writes every non-disabled part's value in order; disabled
parts are skipped entirely". An exception of a part leaves the call. -/
def write {α : Type} (E : nv_val_ops α) : List (String × α) → ostream → Except String ostream
  | [], os => Except.ok os
  | p :: rest, os =>
    if E.is_disabled p.2 = true then write E rest os
    else
      match E.write p.2 os with
      | Except.ok os1 => write E rest os1
      | Except.error e => Except.error e

end nv_compound

/-- The data members of an `nv_array_generic<T, I, L>` object: `m_count`, and the
inherited `m_parts`, `m_width`, `m_bytes` and `m_set`. -/
structure nv_array_generic (α : Type) where
  m_count : Nat
  m_parts : List (String × α)
  m_width : Nat
  m_bytes : Nat
  m_set : Bool
deriving DecidableEq, Repr

namespace nv_array_generic

/-- The constructor `nv_array_generic(I n = 0)`; `L` is the list flag. -/
def construct {α : Type} (E : nv_val_ops α) (L : Bool) (n : Nat) :
    Except nv_error (nv_array_generic α) :=
  if L = false ∧ n = 0 then Except.error nv_error.invalid_argument
  else Except.ok
    { m_count := n, m_parts := [], m_width := n * E.bytes E.make, m_bytes := 0,
      m_set := false }

/-- The method `definition()`: `m_count` fresh elements named by their decimal index. -/
def definition {α : Type} (E : nv_val_ops α) (a : nv_array_generic α) :
    List (String × α) :=
  (List.range a.m_count).map (fun (i : Nat) => (std_to_string (i : Int), E.make))

/-- The method `set(name, val)` of `nv_array_generic<T, I, L>`: the object after the call
and the outcome. -/
def set {α : Type} (E : nv_val_ops α) (I : NumType) (L : Bool) (a : nv_array_generic α)
    (name val : String) : nv_array_generic α × Except nv_error Unit :=
  let in_range : Bool :=
    match lexical_cast I name 10 with
    | some index => decide (index < (a.m_count : Int))
    | none => false
  if in_range = true then
    ({ a with m_parts := (nv_compound.set E a.m_parts name val).1 },
      (nv_compound.set E a.m_parts name val).2)
  else if L = true ∧ name = "-1" then
    if (a.m_parts.length : Int) ≥ I.limits_max then
      (a, Except.error nv_error.capacity_exceeded)
    else
      let parts := a.m_parts ++ [(std_to_string (a.m_count : Int), E.make)]
      let count := (I.wrap (parts.length : Int)).toNat
      ({ a with
          m_parts := (nv_compound.set E parts (std_to_string ((count : Int) - 1)) val).1,
          m_count := count },
        (nv_compound.set E parts (std_to_string ((count : Int) - 1)) val).2)
  else
    match nv_compound.find a.m_parts name with
    | some _ => (a, Except.ok ())
    | none => (a, Except.error nv_error.unknown_field)

/-- The method `read(is)` of `nv_array_generic<T, I, L>`: the object and the stream after
the call, and the hard error if `nv_compound::read` raised one. The count of a list is
read by `nv_num<I, true>::read` only while `m_count` is 0, and a failure of that read
returns at once; `m_width` is restored when the call is left. -/
def read {α : Type} (E : nv_val_ops α) (I : NumType) (L : Bool) (a : nv_array_generic α)
    (is : istream) : nv_array_generic α × istream × Option nv_error :=
  if L = true ∧ a.m_count = 0 ∧
      (nv_num.read_num (NumParams.plain I true) is (a.m_count : Int)).1.fail = true then
    (a, (nv_num.read_num (NumParams.plain I true) is (a.m_count : Int)).1, none)
  else
    let rc : istream × Int :=
      if L = true ∧ a.m_count = 0 then
        nv_num.read_num (NumParams.plain I true) is (a.m_count : Int)
      else (is, (a.m_count : Int))
    let a1 : nv_array_generic α := { a with m_count := rc.2.toNat }
    let r := nv_compound.read E false (if L then a1.m_width else 0) (definition E a1)
      a1.m_parts a1.m_set rc.1
    let a2 : nv_array_generic α :=
      { a1 with m_parts := r.parts, m_bytes := r.m_bytes, m_set := r.m_set }
    match r.error with
    | some e => (a2, r.is, some e)
    | none =>
      ({ a2 with m_set := if L = true ∧ a2.m_count = 0 then true else a2.m_set }, r.is, none)

/-- The method `write(os)` of `nv_array_generic<T, I, L>`: a list writes its count with
`nv_num<I, true>::write` and stops there when the count is 0. -/
def write {α : Type} (E : nv_val_ops α) (I : NumType) (L : Bool) (a : nv_array_generic α)
    (os : ostream) : Except String ostream :=
  if L = true then
    match nv_num.write_num (NumParams.plain I true) os (a.m_count : Int) with
    | Except.error e => Except.error e
    | Except.ok os1 => if a.m_count = 0 then Except.ok os1 else nv_compound.write E a.m_parts os1
  else nv_compound.write E a.m_parts os

/-- The method `bytes()`: `nv_compound::bytes()`, that is `m_bytes ? m_bytes : m_width`,
plus `sizeof(I)` for a list. -/
def bytes {α : Type} (I : NumType) (L : Bool) (a : nv_array_generic α) : Nat :=
  (if a.m_bytes ≠ 0 then a.m_bytes else a.m_width) + (if L then I.bytes else 0)

end nv_array_generic

/-- The count type of the alias `nv_p8list<T> = nv_plist<T, uint8_t>`. -/
def nv_p8list_count : NumType := uint8_t

/-- The count type of the alias `nv_p16list<T> = nv_plist<T, uint8_t>`, as the header
declares it. -/
def nv_p16list_count : NumType := uint8_t

/-! ## nv_ip -/

/-- The data members of an `nv_ip<N>` object: the buffer `m_buf` of `nv_data` and the
inherited `m_set`. -/
structure nv_ip where
  m_buf : List Nat
  m_set : Bool
deriving DecidableEq, Repr

namespace nv_ip

/-- The accessor `is_set()`. -/
def is_set (x : nv_ip) : Bool := x.m_set

/-- The method `nv_ip<N>::parse(str)`, that is `inet_pton(AF, str, &m_buf[0]) == 1`. The
POSIX function `inet_pton` is a parameter: `some addr` when it returns 1 and has stored
the address bytes, `none` otherwise. -/
def parse (inet_pton : String → Option (List Nat)) (x : nv_ip) (str : String) :
    nv_ip × Bool :=
  match inet_pton str with
  | some addr => ({ x with m_buf := addr ++ x.m_buf.drop addr.length }, true)
  | none => (x, false)

end nv_ip

/-! ## operator!= of nv_num, nv_version -/

/-- The operator `nv_num::operator!=`, whose body is `return m_val == other.m_val;`. -/
def nv_num.operator_ne (a b : nv_num) : Bool := decide (a.m_val = b.m_val)

namespace nv_version

/-- The constructor `nv_version(uint8_t maj, uint8_t min)`, that is
`m_val = maj << 8 | min` on a default `nv_u16`. -/
def of_parts (maj min : Nat) : nv_num :=
  { nv_num.mk_default false with m_val := uint16_t.wrap (((maj <<< 8 ||| min : Nat)) : Int) }

/-- The method `major()`, that is `m_val >> 8` returned as a `uint8_t`. -/
def major (x : nv_num) : Int := uint8_t.wrap (((uint16_t.toRaw x.m_val >>> 8 : Nat)) : Int)

/-- The method `minor()`, that is `m_val & 0xff` returned as a `uint8_t`. -/
def minor (x : nv_num) : Int := uint8_t.wrap (((uint16_t.toRaw x.m_val &&& 255 : Nat)) : Int)

/-- The method `nv_version::to_string`. -/
def to_string (x : nv_num) : String :=
  std_to_string (((uint16_t.toRaw x.m_val >>> 8 : Nat)) : Int) ++ "." ++
    std_to_string (((uint16_t.toRaw x.m_val &&& 255 : Nat)) : Int)

/-- The operator `nv_version::operator==`. -/
def operator_eq (a b : nv_num) : Bool := decide (a.m_val = b.m_val)

/-- The operator `nv_version::operator<`. -/
def operator_lt (a b : nv_num) : Bool := decide (a.m_val < b.m_val)

end nv_version

/-! ## The bitmask rendering as the specification words it -/

namespace nv_bitmask

/-- The table name of bit `i`: the map entry keyed by the flag value of the bit, or the
vector entry at the bit position; empty when the table has none. -/
def spec_bit_name (P : NumParams) (e : nv_enum_bitmask) (i : Nat) : String :=
  if e.m_map ≠ [] then (nv_enum_bitmask.map_find (P.T.ofRaw (2 ^ i)) e.m_map).getD ""
  else e.m_vec.getD i ""

/-- How one set bit is shown: its non-empty table name, else the hex literal of the
single bit. -/
def spec_bit_piece (to_hex : Int → String) (P : NumParams) (e : nv_enum_bitmask)
    (i : Nat) : String :=
  if spec_bit_name P e i ≠ "" then spec_bit_name P e i
  else "0x" ++ to_hex (P.T.ofRaw (2 ^ i))

/-- The set bits of a stored value, in increasing bit position. -/
def spec_set_bits (P : NumParams) (v : Int) : List Nat :=
  (List.range (P.T.bytes * 8)).filter (fun i => (P.T.toRaw v).testBit i)

/-- The rendering of a bitmask in the words of the specification: the bare hex literal
for 0, else the pieces of the set bits joined by the separator. -/
def spec_render (to_hex : Int → String) (P : NumParams) (e : nv_enum_bitmask)
    (pretty : Bool) : String :=
  if e.base.m_val = 0 then "0x" ++ to_hex 0
  else String.intercalate (if pretty then " | " else "|")
    ((spec_set_bits P e.base.m_val).map (spec_bit_piece to_hex P e))

/-- The accumulation of the pieces onto `ret`, a separator before every piece but the
first. -/
def join_from (sep : String) : String → List String → String
  | ret, [] => ret
  | ret, p :: ps => join_from sep ((if ret ≠ "" then ret ++ sep else ret) ++ p) ps

end nv_bitmask

/-! ## Objects used in the examples -/

/-- Two flags `A = 0x01`, `B = 0x02` on an 8-bit unsigned bitmask, value `0x00`. -/
def bitmask_AB : nv_enum_bitmask := ⟨nv_num.mk_val 0 false, "bitmask", [], ["A", "B"]⟩

/-- A bitmask whose only flag is named `-A` (bit 0), value `0x00`. -/
def bitmask_dash : nv_enum_bitmask := ⟨nv_num.mk_val 0 false, "bitmask", [], ["-A"]⟩

/-- A 64-bit bitmask `nv_bitmask<nv_u64>` without a table, holding 1. -/
def bitmask_u64_one : nv_enum_bitmask := ⟨nv_num.mk_val 1 false, "bitmask", [], []⟩

/-- An enum `nv_enum<nv_u8>` with the vec table `off`, `on`, not yet set. -/
def enum_off_on : nv_enum_bitmask := ⟨nv_num.mk_default false, "enum", [], ["off", "on"]⟩

/-- An enum `nv_enum<nv_u8_m<3>>` without a table, not yet set. -/
def enum_u8_m3 : nv_enum_bitmask := ⟨nv_num.mk_default false, "enum", [], []⟩

/-- An enum `nv_enum<nv_i8>` named `e` with the vec table `a`, `b`, holding -1 (as after
reading the byte `0xff`). -/
def enum_i8_neg : nv_enum_bitmask := ⟨nv_num.mk_val (-1) false, "e", [], ["a", "b"]⟩

/-- The empty list `nv_plist<nv_u32, uint16_t>` after `init`. -/
def plist_empty : nv_array_generic nv_num :=
  { m_count := 0, m_parts := [], m_width := 0, m_bytes := 0, m_set := false }

/-- The empty list `nv_plist<nv_u8, uint8_t>` after `init`. -/
def plist_u8_empty : nv_array_generic nv_num :=
  { m_count := 0, m_parts := [], m_width := 0, m_bytes := 0, m_set := false }

/-- A list of three `nv_u32` elements holding 10, 20, 30. -/
def plist_three : nv_array_generic nv_num :=
  { m_count := 3,
    m_parts := [("0", nv_num.mk_val 10 false), ("1", nv_num.mk_val 20 false),
      ("2", nv_num.mk_val 30 false)],
    m_width := 0, m_bytes := 0, m_set := true }

/-- A fixed array `nv_array<nv_u32>` of three elements, as constructed. -/
def array_three : nv_array_generic nv_num :=
  { m_count := 3, m_parts := [], m_width := 12, m_bytes := 0, m_set := false }

/-- The nine names `f0`, ..., `f8` of a vec table. -/
def names_nine : List String := ["f0", "f1", "f2", "f3", "f4", "f5", "f6", "f7", "f8"]

/-- A bitmask `nv_bitmask<nv_u8>` with the nine-name vec table, value `0x00`. -/
def bitmask_nine : nv_enum_bitmask := ⟨nv_num.mk_default false, "bitmask", [], names_nine⟩

/-- An address `nv_ip<4>` that is not yet set. -/
def ip4_unset : nv_ip := ⟨[0, 0, 0, 0], false⟩

/-- A stand-in for `inet_pton(AF_INET, ...)` that knows one address. -/
def inet_pton_sample (s : String) : Option (List Nat) :=
  if s = "192.168.0.1" then some [192, 168, 0, 1] else none

/-- An enum `nv_enum<nv_i32>` named `e` with the vec table `a`, `b`, `c`, holding -5. -/
def enum_i32_neg : nv_enum_bitmask := ⟨nv_num.mk_val (-5) false, "e", [], ["a", "b", "c"]⟩

/-- An enum `nv_enum<nv_u8>` whose vec table starts with an empty placeholder, not set. -/
def enum_placeholder : nv_enum_bitmask := ⟨nv_num.mk_default false, "enum", [], ["", "on"]⟩

/-- A bitmask `nv_bitmask<nv_u8>` whose vec table starts with an empty placeholder, value
`0x00`, not set. -/
def bitmask_placeholder : nv_enum_bitmask :=
  ⟨nv_num.mk_default false, "bitmask", [], ["", "B"]⟩

theorem digit_value_digitChar (d : Nat) (h : d < 16) :
    digit_value (Nat.digitChar d) = some d := by
  interval_cases d <;> decide

theorem lex_digits_append (b : Nat) (xs ys : List Char) (acc : Nat) :
    lex_digits b acc (xs ++ ys) = (lex_digits b acc xs).bind (fun a => lex_digits b a ys) := by
  induction xs generalizing acc with
  | nil => simp [lex_digits]
  | cons c cs ih =>
    simp only [List.cons_append, lex_digits]
    cases digit_value c with
    | none => simp
    | some d =>
      by_cases hd : d < b
      · simp [hd, ih]
      · simp [hd]

theorem toDigitsCore_acc (b fuel n : Nat) (ds : List Char) :
    Nat.toDigitsCore b fuel n ds = Nat.toDigitsCore b fuel n [] ++ ds := by
  induction fuel generalizing n ds with
  | zero => simp [Nat.toDigitsCore]
  | succ f ih =>
    simp only [Nat.toDigitsCore]
    by_cases h0 : n / b = 0
    · simp [h0]
    · simp only [h0, if_false]
      rw [ih (n / b) (Nat.digitChar (n % b) :: ds), ih (n / b) [Nat.digitChar (n % b)]]
      simp

theorem toDigitsCore_ne_nil (b fuel n : Nat) (hf : 0 < fuel) :
    Nat.toDigitsCore b fuel n [] ≠ [] := by
  cases fuel with
  | zero => omega
  | succ f =>
    simp only [Nat.toDigitsCore]
    by_cases h0 : n / b = 0
    · simp [h0]
    · simp only [h0, if_false]
      rw [toDigitsCore_acc]
      simp

theorem lex_digits_toDigitsCore (b : Nat) (hb : 2 ≤ b) (hb16 : b ≤ 16) (fuel n : Nat)
    (hfuel : n < fuel) :
    lex_digits b 0 (Nat.toDigitsCore b fuel n []) = some n := by
  induction fuel generalizing n with
  | zero => omega
  | succ f ih =>
    have hdig : digit_value (Nat.digitChar (n % b)) = some (n % b) :=
      digit_value_digitChar _ (lt_of_lt_of_le (Nat.mod_lt _ (by omega)) hb16)
    have hlt : n % b < b := Nat.mod_lt _ (by omega)
    simp only [Nat.toDigitsCore]
    by_cases h0 : n / b = 0
    · have hn : n % b = n := by
        have := Nat.div_add_mod n b
        rw [h0] at this
        simpa using this
      rw [hn] at hdig hlt
      simp [h0, lex_digits, hdig, hlt, hn]
    · simp only [h0, if_false]
      rw [toDigitsCore_acc, lex_digits_append]
      have hdiv : n / b < f := by
        have h1 : n / b < n := Nat.div_lt_self (by
          rcases Nat.eq_zero_or_pos n with h | h
          · subst h; simp at h0
          · exact h) (by omega)
        omega
      rw [ih (n / b) hdiv]
      simp only [Option.some_bind, lex_digits, hdig, hlt, if_true]
      congr 1
      exact Nat.div_add_mod' n b

theorem lex_unsigned_toDigits (b : Nat) (hb : 2 ≤ b) (hb16 : b ≤ 16) (n : Nat) :
    lex_unsigned b (Nat.toDigits b n) = some n := by
  unfold lex_unsigned Nat.toDigits
  have hne := toDigitsCore_ne_nil b (n + 1) n (by omega)
  cases h : Nat.toDigitsCore b (n + 1) n [] with
  | nil => exact absurd h hne
  | cons c cs =>
    simp only
    rw [← h]
    exact lex_digits_toDigitsCore b hb hb16 (n + 1) n (by omega)

theorem toDigitsCore_mem (b : Nat) (hb : 0 < b) (fuel n : Nat) (c : Char)
    (hc : c ∈ Nat.toDigitsCore b fuel n []) : ∃ d, d < b ∧ c = Nat.digitChar d := by
  induction fuel generalizing n with
  | zero => simp [Nat.toDigitsCore] at hc
  | succ f ih =>
    simp only [Nat.toDigitsCore] at hc
    by_cases h0 : n / b = 0
    · simp only [h0, if_true, List.mem_singleton] at hc
      exact ⟨n % b, Nat.mod_lt _ hb, hc⟩
    · simp only [h0, if_false] at hc
      rw [toDigitsCore_acc] at hc
      rcases List.mem_append.mp hc with h | h
      · exact ih _ h
      · simp only [List.mem_singleton] at h
        exact ⟨n % b, Nat.mod_lt _ hb, h⟩

theorem decimal_char_props (d : Nat) (h : d < 10) :
    Nat.digitChar d ≠ '-' ∧ Nat.digitChar d ≠ 'x' ∧ Nat.digitChar d ≠ '+' ∧
      Nat.digitChar d ≠ '|' := by
  interval_cases d <;> decide

theorem toDigits_mem_decimal (n : Nat) (c : Char) (hc : c ∈ Nat.toDigits 10 n) :
    c ≠ '-' ∧ c ≠ 'x' ∧ c ≠ '+' ∧ c ≠ '|' := by
  obtain ⟨d, hd, rfl⟩ := toDigitsCore_mem 10 (by decide) (n + 1) n c hc
  exact decimal_char_props d hd

theorem lex_radix_toDigits (n : Nat) :
    lex_radix 0 (Nat.toDigits 10 n) = (10, Nat.toDigits 10 n) := by
  unfold lex_radix
  simp only [if_true]
  split
  · rename_i rest heq
    have hx : 'x' ∈ Nat.toDigits 10 n := by rw [heq]; simp
    exact absurd rfl (toDigits_mem_decimal n 'x' hx).2.1
  · rfl

theorem repr_data (n : Nat) : (Nat.repr n).data = Nat.toDigits 10 n := rfl

theorem lexical_cast_nat_digits (T : NumType) (n : Nat)
    (hv : T.limits_min ≤ (n : Int) ∧ (n : Int) ≤ T.limits_max) :
    lexical_cast T (Nat.repr n) 0 = some (n : Int) := by
  unfold lexical_cast
  rw [repr_data]
  have hsplit : lex_sign (Nat.toDigits 10 n) = (false, Nat.toDigits 10 n) := by
    unfold lex_sign
    split
    · rename_i rest heq
      have hx : '-' ∈ Nat.toDigits 10 n := by rw [heq]; simp
      exact absurd rfl (toDigits_mem_decimal n '-' hx).1
    · rfl
  simp only [hsplit, lex_radix_toDigits, lex_unsigned_toDigits 10 (by decide) (by decide) n]
  simp [hv]

theorem lexical_cast_neg_digits (T : NumType) (n : Nat)
    (hv : T.limits_min ≤ -(n : Int) ∧ -(n : Int) ≤ T.limits_max) :
    lexical_cast T ("-" ++ Nat.repr n) 0 = some (-(n : Int)) := by
  unfold lexical_cast
  have hdata : ("-" ++ Nat.repr n).data = '-' :: Nat.toDigits 10 n := by
    simp [String.data_append, repr_data]
  rw [hdata]
  simp only [lex_sign, lex_radix_toDigits, lex_unsigned_toDigits 10 (by decide) (by decide) n]
  simp [hv]

/-- Decimal text produced by `std::to_string` is read back by `lexical_cast`. -/
theorem lexical_cast_to_string (T : NumType) (v : Int) (hv : T.inRange v) :
    lexical_cast T (std_to_string v) 0 = some v := by
  unfold std_to_string
  unfold NumType.inRange at hv
  by_cases hneg : v < 0
  · simp only [hneg, if_true]
    have hval : -((v.natAbs : Nat) : Int) = v := by omega
    have := lexical_cast_neg_digits T v.natAbs (by rw [hval]; exact hv)
    rw [this, hval]
  · simp only [hneg, if_false]
    have hval : ((v.natAbs : Nat) : Int) = v := by omega
    have := lexical_cast_nat_digits T v.natAbs (by rw [hval]; exact hv)
    rw [this, hval]

/-! ## Lemmas: object representation and wire bytes -/

theorem bytes_le_length (w u : Nat) : (bytes_le w u).length = w := by
  induction w generalizing u with
  | zero => rfl
  | succ w ih => simp [bytes_le, ih]

theorem of_bytes_le_bytes_le (w u : Nat) : of_bytes_le (bytes_le w u) = u % 256 ^ w := by
  induction w generalizing u with
  | zero => simp [bytes_le, of_bytes_le, Nat.mod_one]
  | succ w ih =>
    simp only [bytes_le, of_bytes_le, ih]
    rw [pow_succ, Nat.mul_comm (256 ^ w) 256, Nat.mod_mul]

theorem pow_bits (T : NumType) : 256 ^ T.bytes = 2 ^ T.bits := by
  unfold NumType.bits
  rw [pow_mul]
  norm_num

theorem toRaw_lt (T : NumType) (v : Int) : T.toRaw v < 2 ^ T.bits := by
  unfold NumType.toRaw
  have hpos : (0 : Int) < (2 : Int) ^ T.bits := by positivity
  have h1 := Int.emod_lt_of_pos v hpos
  have h2 := Int.emod_nonneg v (ne_of_gt hpos)
  have : ((v % (2 : Int) ^ T.bits).toNat : Int) < ((2 ^ T.bits : Nat) : Int) := by
    rw [Int.toNat_of_nonneg h2]
    push_cast
    exact h1
  exact_mod_cast this

theorem two_pow_bits_split (T : NumType) (hT : 0 < T.bytes) :
    (2 : Int) ^ T.bits = 2 * (2 : Int) ^ (T.bits - 1) := by
  have hb : T.bits = (T.bits - 1) + 1 := by unfold NumType.bits; omega
  conv_lhs => rw [hb]
  rw [pow_succ]
  ring

theorem ofRaw_toRaw (T : NumType) (hT : 0 < T.bytes) (v : Int) (hv : T.inRange v) :
    T.ofRaw (T.toRaw v) = v := by
  unfold NumType.inRange NumType.limits_min NumType.limits_max at hv
  unfold NumType.ofRaw NumType.toRaw
  have hsplit := two_pow_bits_split T hT
  have hhalf : (0 : Int) < (2 : Int) ^ (T.bits - 1) := by positivity
  have hcast : (((2 : Nat) ^ (T.bits - 1) : Nat) : Int) = (2 : Int) ^ (T.bits - 1) := by
    push_cast; rfl
  cases hs : T.signed with
  | false =>
    simp only [hs, Bool.false_eq_true, if_false] at hv
    have hmod : v % (2 : Int) ^ T.bits = v := Int.emod_eq_of_lt hv.1 (by omega)
    simp only [Bool.false_eq_true, false_and, if_false, hmod]
    exact Int.toNat_of_nonneg hv.1
  | true =>
    simp only [hs, if_true] at hv
    by_cases hneg : v < 0
    · have hmod : v % (2 : Int) ^ T.bits = v + (2 : Int) ^ T.bits := by
        rw [← Int.add_emod_self]
        exact Int.emod_eq_of_lt (by omega) (by omega)
      have hnn : (0 : Int) ≤ v + (2 : Int) ^ T.bits := by omega
      have hge : (2 : Nat) ^ (T.bits - 1) ≤ (v + (2 : Int) ^ T.bits).toNat := by
        have : (((2 : Nat) ^ (T.bits - 1) : Nat) : Int) ≤
            (((v + (2 : Int) ^ T.bits).toNat : Nat) : Int) := by
          rw [Int.toNat_of_nonneg hnn, hcast]; omega
        exact_mod_cast this
      simp only [hmod, true_and, hge, if_true, Int.toNat_of_nonneg hnn]
      omega
    · have hmod : v % (2 : Int) ^ T.bits = v := Int.emod_eq_of_lt (by omega) (by omega)
      have hnn : (0 : Int) ≤ v := by omega
      have hlt : ¬ (2 : Nat) ^ (T.bits - 1) ≤ v.toNat := by
        intro hle
        have : (((2 : Nat) ^ (T.bits - 1) : Nat) : Int) ≤ ((v.toNat : Nat) : Int) := by
          exact_mod_cast hle
        rw [Int.toNat_of_nonneg hnn, hcast] at this
        omega
      simp only [hmod, true_and, hlt, if_false]
      exact Int.toNat_of_nonneg hnn

theorem wrap_inRange (T : NumType) (hT : 0 < T.bytes) (v : Int) (hv : T.inRange v) :
    T.wrap v = v := by
  unfold NumType.wrap
  exact ofRaw_toRaw T hT v hv

theorem wire_encode_length (T : NumType) (be : Bool) (v : Int) :
    (wire_encode T be v).length = T.bytes := by
  unfold wire_encode
  cases be <;> simp [bytes_le_length]

theorem wire_decode_encode (T : NumType) (hT : 0 < T.bytes) (be : Bool) (v : Int)
    (hv : T.inRange v) : wire_decode T be (wire_encode T be v) = v := by
  unfold wire_decode wire_encode
  have hraw : of_bytes_le (bytes_le T.bytes (T.toRaw v)) = T.toRaw v := by
    rw [of_bytes_le_bytes_le, pow_bits]
    exact Nat.mod_eq_of_lt (toRaw_lt T v)
  cases be
  · simp only [Bool.false_eq_true, if_false, hraw]
    exact ofRaw_toRaw T hT v hv
  · simp only [if_true, List.reverse_reverse, hraw]
    exact ofRaw_toRaw T hT v hv

theorem istream_read_append (bs rest : List Nat) :
    (istream.good (bs ++ rest)).read bs.length = (some bs, istream.good rest) := by
  simp [istream.read]

theorem of_bytes_le_eq_ofDigits (bs : List Nat) : of_bytes_le bs = Nat.ofDigits 256 bs := by
  induction bs with
  | nil => simp [of_bytes_le]
  | cons b bs ih => simp [of_bytes_le, Nat.ofDigits_cons, ih]

/-! ## Theorems: nv_num -/

/-- C1: for every nv_num type (positive storage width, signed or unsigned, either byte
order, range `[Min, Max]`) and every `v` with `Min <= v <= Max`, parsing the decimal text
of `v` succeeds, writing the parsed value emits `sizeof(T)` bytes, reading those bytes
into a freshly constructed value of the same type consumes exactly them, gives a value
equal to `v` with `is_set()` true, and its compact rendering is the decimal text of `v`
again. -/
theorem nv_num_text_binary_roundtrip (to_hex : Int → String) (P : NumParams) (hP : P.wf)
    (x : nv_num) (v : Int) (hv : P.Min ≤ v ∧ v ≤ P.Max) (os : ostream) (rest : List Nat) :
    (nv_num.parse P x (std_to_string v)).2 = true ∧
    ∃ bs, nv_num.write P (nv_num.parse P x (std_to_string v)).1 os = Except.ok (os ++ bs) ∧
      bs.length = P.T.bytes ∧
      (nv_num.read P (nv_num.mk_default false) (istream.good (bs ++ rest))).2
        = istream.good rest ∧
      (nv_num.read P (nv_num.mk_default false) (istream.good (bs ++ rest))).1.num = v ∧
      (nv_num.read P (nv_num.mk_default false) (istream.good (bs ++ rest))).1.is_set = true ∧
      nv_num.to_str to_hex P
        (nv_num.read P (nv_num.mk_default false) (istream.good (bs ++ rest))).1
        = std_to_string v := by
  obtain ⟨hT, hMin, hMax⟩ := hP
  have hr : P.T.inRange v := ⟨le_trans hMin.1 hv.1, le_trans hv.2 hMax.2⟩
  have hlex := lexical_cast_to_string P.T v hr
  have hnot : ¬ (v < P.Min ∨ v > P.Max) := by omega
  have hparse : nv_num.parse P x (std_to_string v)
      = ({ x with m_val := v, m_set := true }, true) := by
    simp only [nv_num.parse, hlex, hnot, if_false]
  rw [hparse]
  refine ⟨rfl, wire_encode P.T P.BigEndian v, ?_, wire_encode_length _ _ _, ?_⟩
  · have hgt : ¬ v > P.Max := by omega
    simp only [nv_num.write, nv_num.write_num, hgt, if_false, wrap_inRange P.T hT v hr]
  · have hread : nv_num.read P (nv_num.mk_default false)
        (istream.good (wire_encode P.T P.BigEndian v ++ rest))
        = (⟨v, false, true⟩, istream.good rest) := by
      have h := istream_read_append (wire_encode P.T P.BigEndian v) rest
      rw [wire_encode_length] at h
      simp only [nv_num.read, nv_num.read_num, h, istream.fail, nv_num.mk_default,
        wire_decode_encode P.T hT P.BigEndian v hr]
      simp
    rw [hread]
    refine ⟨rfl, rfl, rfl, ?_⟩
    simp [nv_num.to_str, nv_num.to_string]

/-- Witness for C1: the instance `nv_u16` and the value 258. -/
theorem nv_num_text_binary_roundtrip_witness :
    nv_u16.wf ∧ (nv_u16.Min ≤ 258 ∧ (258 : Int) ≤ nv_u16.Max) ∧
    (nv_num.parse nv_u16 (nv_num.mk_default false) (std_to_string 258)).2 = true ∧
    ∃ bs, nv_num.write nv_u16
        (nv_num.parse nv_u16 (nv_num.mk_default false) (std_to_string 258)).1 []
        = Except.ok ([] ++ bs) ∧
      bs.length = nv_u16.T.bytes ∧
      (nv_num.read nv_u16 (nv_num.mk_default false) (istream.good (bs ++ [7]))).2
        = istream.good [7] ∧
      (nv_num.read nv_u16 (nv_num.mk_default false) (istream.good (bs ++ [7]))).1.num = 258 ∧
      (nv_num.read nv_u16 (nv_num.mk_default false) (istream.good (bs ++ [7]))).1.is_set
        = true ∧
      nv_num.to_str (fun _ => "") nv_u16
        (nv_num.read nv_u16 (nv_num.mk_default false) (istream.good (bs ++ [7]))).1
        = std_to_string 258 :=
  ⟨by decide, by decide,
    nv_num_text_binary_roundtrip (fun _ => "") nv_u16 (by decide) (nv_num.mk_default false)
      258 (by decide) [] [7]⟩

/-- C2: `nv_num::parse(s)` returns true exactly when `s` lexes as a number `n` of the
storage type with `Min <= n <= Max`; then the stored value becomes `n` and `is_set()`
becomes true; whenever it returns false the object is exactly what it was. On the
unconstrained 8-bit unsigned type `parse("256")` fails and `parse("255")` succeeds. -/
theorem nv_num_parse_spec (P : NumParams) (x : nv_num) (s : String) :
    ((nv_num.parse P x s).2 = true ↔
      ∃ n, lexical_cast P.T s 0 = some n ∧ P.Min ≤ n ∧ n ≤ P.Max) ∧
    (∀ n, lexical_cast P.T s 0 = some n → P.Min ≤ n → n ≤ P.Max →
      (nv_num.parse P x s).1.num = n ∧ (nv_num.parse P x s).1.is_set = true ∧
      (nv_num.parse P x s).1.m_hex = x.m_hex) ∧
    ((nv_num.parse P x s).2 = false → (nv_num.parse P x s).1 = x) ∧
    (nv_num.parse nv_u8 x "256" = (x, false)) ∧
    (nv_num.parse nv_u8 x "255" = (⟨255, x.m_hex, true⟩, true)) := by
  refine ⟨?_, ?_, ?_, ?_, ?_⟩
  · unfold nv_num.parse
    cases h : lexical_cast P.T s 0 with
    | none => simp
    | some val =>
      by_cases hr : val < P.Min ∨ val > P.Max
      · simp only [hr, if_true, Bool.false_eq_true, Option.some.injEq, exists_eq_left',
          false_iff, not_and, not_le]
        omega
      · simp only [hr, if_false, Option.some.injEq, exists_eq_left', true_iff]
        omega
  · intro n hn h1 h2
    have hr : ¬ (n < P.Min ∨ n > P.Max) := by omega
    simp [nv_num.parse, hn, hr, nv_num.num, nv_num.is_set]
  · unfold nv_num.parse
    cases h : lexical_cast P.T s 0 with
    | none => simp
    | some val =>
      by_cases hr : val < P.Min ∨ val > P.Max
      · simp [hr]
      · simp [hr]
  · have h : lexical_cast nv_u8.T "256" 0 = none := by decide
    simp [nv_num.parse, h]
  · have h : lexical_cast nv_u8.T "255" 0 = some 255 := by decide
    have hr : ¬ ((255 : Int) < nv_u8.Min ∨ (255 : Int) > nv_u8.Max) := by decide
    simp only [nv_num.parse, h, hr, if_false]

/-- C3, as the code has it: `write` is gated by the configured `Max`. For every stored
value `v` of the storage type, `v <= Max` (also when `v < Min`) makes `write` succeed and
emit exactly the `sizeof(T)` bytes that decode back to `v`, and `v > Max` makes `write`
raise the invalid-argument error. -/
theorem nv_num_write_gate (P : NumParams) (hP : P.wf) (x : nv_num)
    (hx : P.T.inRange x.m_val) (os : ostream) :
    (x.m_val ≤ P.Max →
      nv_num.write P x os = Except.ok (os ++ wire_encode P.T P.BigEndian x.m_val) ∧
      (wire_encode P.T P.BigEndian x.m_val).length = P.T.bytes ∧
      wire_decode P.T P.BigEndian (wire_encode P.T P.BigEndian x.m_val) = x.m_val) ∧
    (P.Max < x.m_val →
      nv_num.write P x os = Except.error "value exceeds maximum of target type") := by
  obtain ⟨hT, -, -⟩ := hP
  constructor
  · intro hle
    have hgt : ¬ x.m_val > P.Max := by omega
    refine ⟨?_, wire_encode_length _ _ _, wire_decode_encode P.T hT _ _ hx⟩
    simp only [nv_num.write, nv_num.write_num, hgt, if_false, wrap_inRange P.T hT _ hx]
  · intro hlt
    have hgt : x.m_val > P.Max := hlt
    simp only [nv_num.write, nv_num.write_num, hgt, if_true]

/-- Witness for the amended C3: `nv_u8_m<3>` holding 2. -/
theorem nv_num_write_gate_witness :
    (nv_u8_m 3).wf ∧ (nv_u8_m 3).T.inRange (nv_num.mk_val 2 false).m_val ∧
    (nv_num.mk_val 2 false).m_val ≤ (nv_u8_m 3).Max ∧
    nv_num.write (nv_u8_m 3) (nv_num.mk_val 2 false) [] =
      Except.ok ([] ++ wire_encode (nv_u8_m 3).T (nv_u8_m 3).BigEndian
        (nv_num.mk_val 2 false).m_val) ∧
    (wire_encode (nv_u8_m 3).T (nv_u8_m 3).BigEndian (nv_num.mk_val 2 false).m_val).length
      = (nv_u8_m 3).T.bytes ∧
    wire_decode (nv_u8_m 3).T (nv_u8_m 3).BigEndian
      (wire_encode (nv_u8_m 3).T (nv_u8_m 3).BigEndian (nv_num.mk_val 2 false).m_val)
      = (nv_num.mk_val 2 false).m_val :=
  ⟨by decide, by decide, by decide,
    (nv_num_write_gate (nv_u8_m 3) (by decide) (nv_num.mk_val 2 false) (by decide) []).1
      (by decide)⟩

/-- Counterexample to C3 as stated: an `nv_u8_m<3>` reads the byte 5 (no range check on
read), so it stores 5, above `Max = 3` and within `uint8_t`; `write` then raises the
error instead of emitting the byte. -/
theorem nv_num_write_out_of_range_counterexample :
    (nv_num.read (nv_u8_m 3) (nv_num.mk_default false) (istream.good [5])).1
      = ⟨5, false, true⟩ ∧
    (nv_u8_m 3).Max < 5 ∧ (5 : Int) ≤ uint8_t.limits_max ∧
    nv_num.write (nv_u8_m 3) ⟨5, false, true⟩ []
      = Except.error "value exceeds maximum of target type" ∧
    nv_num.write (nv_u8_m 3) ⟨5, false, true⟩ [] ≠ Except.ok [5] := by
  decide

/-- C4: when at least `sizeof(T)` bytes remain, `read` consumes exactly `sizeof(T)` of
them, stores the integer they denote in the byte order of the type (most significant
byte first when `BigEndian`, least significant first otherwise), whatever `[Min, Max]`
is, and sets `is_set()`; when fewer remain, `read` leaves the stream failed and the
object as it was. -/
theorem nv_num_read_spec (P : NumParams) (hT : 0 < P.T.bytes) (x : nv_num) (is : istream) :
    (P.T.bytes ≤ is.remaining →
      ∃ bs rest, is = istream.good (bs ++ rest) ∧ bs.length = P.T.bytes ∧
        nv_num.read P x is =
          ({ x with
              m_val := P.T.ofRaw (Nat.ofDigits 256 (if P.BigEndian then bs.reverse else bs)),
              m_set := true },
            istream.good rest)) ∧
    (is.remaining < P.T.bytes →
      (nv_num.read P x is).2.fail = true ∧ (nv_num.read P x is).1 = x) := by
  constructor
  · intro hle
    cases is with
    | failed => simp [istream.remaining] at hle; omega
    | good d =>
      simp only [istream.remaining] at hle
      refine ⟨d.take P.T.bytes, d.drop P.T.bytes, by simp, by simp [hle], ?_⟩
      simp [nv_num.read, nv_num.read_num, istream.read, hle, istream.fail, wire_decode,
        of_bytes_le_eq_ofDigits]
  · intro hlt
    cases is with
    | failed => simp [nv_num.read, nv_num.read_num, istream.read, istream.fail]
    | good d =>
      simp only [istream.remaining] at hlt
      have hn : ¬ P.T.bytes ≤ d.length := by omega
      simp [nv_num.read, nv_num.read_num, istream.read, hn, istream.fail]

/-- Witness for C4: `nv_u16` reading from three bytes. -/
theorem nv_num_read_spec_witness :
    0 < nv_u16.T.bytes ∧ nv_u16.T.bytes ≤ (istream.good [1, 2, 3]).remaining ∧
    ∃ bs rest, istream.good [1, 2, 3] = istream.good (bs ++ rest) ∧
      bs.length = nv_u16.T.bytes ∧
      nv_num.read nv_u16 (nv_num.mk_default false) (istream.good [1, 2, 3]) =
        ({ nv_num.mk_default false with
            m_val := nv_u16.T.ofRaw
              (Nat.ofDigits 256 (if nv_u16.BigEndian then bs.reverse else bs)),
            m_set := true },
          istream.good rest) :=
  ⟨by decide, by decide,
    (nv_num_read_spec nv_u16 (by decide) (nv_num.mk_default false)
      (istream.good [1, 2, 3])).1 (by decide)⟩

/-! ## Theorems: nv_bitmask -/

theorem toRaw_ofRaw (T : NumType) (u : Nat) (hu : u < 2 ^ T.bits) :
    T.toRaw (T.ofRaw u) = u := by
  unfold NumType.toRaw NumType.ofRaw
  have hu' : (u : Int) < (2 : Int) ^ T.bits := by exact_mod_cast hu
  have hpos : (0 : Int) < (2 : Int) ^ T.bits := by positivity
  by_cases hc : T.signed = true ∧ 2 ^ (T.bits - 1) ≤ u
  · simp only [hc, and_self, if_true]
    have : ((u : Int) - (2 : Int) ^ T.bits) % (2 : Int) ^ T.bits = (u : Int) := by
      rw [Int.sub_emod, Int.emod_self, sub_zero, Int.emod_emod]
      exact Int.emod_eq_of_lt (by omega) hu'
    rw [this]
    simp
  · simp only [hc, if_false]
    rw [Int.emod_eq_of_lt (by omega) hu']
    simp

theorem ofRaw_eq_zero_iff (T : NumType) (u : Nat) (hu : u < 2 ^ T.bits) :
    T.ofRaw u = 0 ↔ u = 0 := by
  unfold NumType.ofRaw
  have hu' : (u : Int) < (2 : Int) ^ T.bits := by exact_mod_cast hu
  by_cases hc : T.signed = true ∧ 2 ^ (T.bits - 1) ≤ u
  · simp only [hc, and_self, if_true]
    constructor
    · intro h; omega
    · intro h
      subst h
      have : 0 < 2 ^ (T.bits - 1) := by positivity
      omega
  · simp only [hc, if_false]
    omega

theorem toRaw_bit_or (T : NumType) (a b : Int) :
    T.toRaw (T.bit_or a b) = T.toRaw a ||| T.toRaw b := by
  unfold NumType.bit_or
  exact toRaw_ofRaw T _ (Nat.or_lt_two_pow (toRaw_lt T a) (toRaw_lt T b))

theorem testBit_bit_or (T : NumType) (a b : Int) (i : Nat) :
    (T.toRaw (T.bit_or a b)).testBit i = ((T.toRaw a).testBit i || (T.toRaw b).testBit i) := by
  rw [toRaw_bit_or T, Nat.testBit_or]

theorem bitmask_parse_plus (P : NumParams) (e : nv_enum_bitmask) (t : String) (n : Int)
    (ht : nv_enum_bitmask.str_to_num P e t true = some (some n)) :
    nv_bitmask.parse P e ("+" ++ t)
      = some (nv_enum_bitmask.assign e (P.T.bit_or e.base.m_val n), true) := by
  have hdata : ("+" ++ t).data = '+' :: t.data := by simp [String.data_append]
  unfold nv_bitmask.parse
  rw [hdata]
  simp [ht]

theorem bitmask_parse_plain (P : NumParams) (e : nv_enum_bitmask) (t : String) (n : Int)
    (ht : nv_enum_bitmask.str_to_num P e t true = some (some n))
    (hne : t ≠ "") (hplus : t.data.head? ≠ some '+') (hminus : t.data.head? ≠ some '-') :
    nv_bitmask.parse P e t = some (nv_enum_bitmask.assign e n, true) := by
  unfold nv_bitmask.parse
  cases hd : t.data with
  | nil =>
    exfalso
    apply hne
    cases t
    simp_all
  | cons c rest =>
    rw [hd] at hplus hminus
    simp only [List.head?_cons, ne_eq, Option.some.injEq] at hplus hminus
    have hc : ¬ (c = '+' ∨ c = '-') := by tauto
    simp only [hc, if_false, ht]

theorem string_append_ne_empty_right (a b : String) (hb : b ≠ "") : a ++ b ≠ "" := by
  intro h
  apply hb
  have hlen : (a ++ b).length = 0 := by rw [h]; rfl
  rw [String.length_append] at hlen
  have hb0 : b.length = 0 := by omega
  cases b with
  | mk d =>
    have : d = [] := List.length_eq_zero.mp hb0
    subst this
    rfl

theorem string_append_ne_empty_left (a b : String) (ha : a ≠ "") : a ++ b ≠ "" := by
  intro h
  apply ha
  have hlen : (a ++ b).length = 0 := by rw [h]; rfl
  rw [String.length_append] at hlen
  have ha0 : a.length = 0 := by omega
  cases a with
  | mk d =>
    have : d = [] := List.length_eq_zero.mp ha0
    subst this
    rfl

theorem join_from_eq_go (sep acc : String) (hacc : acc ≠ "") (ps : List String) :
    nv_bitmask.join_from sep acc ps = String.intercalate.go acc sep ps := by
  induction ps generalizing acc with
  | nil => rfl
  | cons p ps ih =>
    simp only [nv_bitmask.join_from, String.intercalate.go, hacc, ne_eq, not_false_eq_true,
      if_true]
    exact ih _ (string_append_ne_empty_left _ _ (string_append_ne_empty_left _ _ hacc))

theorem join_from_empty (sep : String) (ps : List String) (hps : ∀ p ∈ ps, p ≠ "") :
    nv_bitmask.join_from sep "" ps = String.intercalate sep ps := by
  cases ps with
  | nil => rfl
  | cons p ps =>
    have hp : p ≠ "" := hps p (by simp)
    simp only [nv_bitmask.join_from, String.intercalate, ne_eq, not_true_eq_false, if_false,
      String.empty_append]
    exact join_from_eq_go sep p hp ps

theorem spec_bit_piece_ne_empty (to_hex : Int → String) (P : NumParams)
    (e : nv_enum_bitmask) (i : Nat) : nv_bitmask.spec_bit_piece to_hex P e i ≠ "" := by
  unfold nv_bitmask.spec_bit_piece
  by_cases h : nv_bitmask.spec_bit_name P e i ≠ ""
  · rw [if_pos h]
    exact h
  · rw [if_neg h]
    exact string_append_ne_empty_left _ _ (by decide)

theorem limits_min_nonpos (T : NumType) : T.limits_min ≤ 0 := by
  unfold NumType.limits_min
  split
  · have : (0 : Int) < (2 : Int) ^ (T.bits - 1) := by positivity
    omega
  · exact le_refl _

theorem limits_max_ge (T : NumType) (hT : 0 < T.bytes) : 127 ≤ T.limits_max := by
  unfold NumType.limits_max
  have h7 : 7 ≤ T.bits - 1 := by unfold NumType.bits; omega
  have h8 : 8 ≤ T.bits := by unfold NumType.bits; omega
  have hn7 : (2 : Nat) ^ 7 ≤ 2 ^ (T.bits - 1) := Nat.pow_le_pow_right (by decide) h7
  have hn8 : (2 : Nat) ^ 8 ≤ 2 ^ T.bits := Nat.pow_le_pow_right (by decide) h8
  have hi7 : ((2 : Nat) ^ 7 : Int) ≤ (2 : Int) ^ (T.bits - 1) := by exact_mod_cast hn7
  have hi8 : ((2 : Nat) ^ 8 : Int) ≤ (2 : Int) ^ T.bits := by exact_mod_cast hn8
  split
  · norm_num at hi7; omega
  · norm_num at hi8; omega

theorem wrap_small (T : NumType) (hT : 0 < T.bytes) (n : Nat) (hn : (n : Int) ≤ T.limits_max) :
    T.wrap (n : Int) = (n : Int) :=
  wrap_inRange T hT _ ⟨le_trans (limits_min_nonpos T) (by omega), hn⟩

theorem toRaw_two_pow (T : NumType) (i : Nat) (hi : i < T.bits) :
    T.toRaw ((2 : Int) ^ i) = 2 ^ i := by
  unfold NumType.toRaw
  have hlt : (2 : Nat) ^ i < 2 ^ T.bits := Nat.pow_lt_pow_right (by decide) hi
  have hlt' : (2 : Int) ^ i < (2 : Int) ^ T.bits := by exact_mod_cast hlt
  rw [Int.emod_eq_of_lt (by positivity) hlt']
  have : ((2 : Int) ^ i) = (((2 : Nat) ^ i : Nat) : Int) := by push_cast; rfl
  rw [this, Int.toNat_natCast]

theorem shl_one_flag (T : NumType) (h4 : T.bytes ≤ 4) (i : Nat) (hi : i < T.bits) :
    ∃ one, shl_one (i : Int) = some one ∧ T.wrap one = T.ofRaw (2 ^ i) := by
  have hb : T.bits ≤ 32 := by unfold NumType.bits; omega
  by_cases h31 : i < 31
  · refine ⟨(2 : Int) ^ i, ?_, ?_⟩
    · have hc : (0 : Int) ≤ (i : Int) ∧ (i : Int) < 31 := by omega
      simp only [shl_one, hc, and_self, if_true, Int.toNat_natCast]
    · unfold NumType.wrap
      rw [toRaw_two_pow T i hi]
  · have hi31 : i = 31 := by omega
    have hbits : T.bits = 32 := by omega
    subst hi31
    refine ⟨-((2 : Int) ^ 31), by decide, ?_⟩
    unfold NumType.wrap
    have : T.toRaw (-((2 : Int) ^ 31)) = 2 ^ 31 := by
      unfold NumType.toRaw
      rw [hbits]
      decide
    rw [this]

theorem bit_and_flag (T : NumType) (v : Int) (i : Nat) (hi : i < T.bits) :
    T.bit_and v (T.ofRaw (2 ^ i)) ≠ 0 ↔ (T.toRaw v).testBit i = true := by
  have hlt : (2 : Nat) ^ i < 2 ^ T.bits := Nat.pow_lt_pow_right (by decide) hi
  unfold NumType.bit_and
  rw [toRaw_ofRaw T _ hlt, Ne, ofRaw_eq_zero_iff T _ (Nat.and_lt_two_pow _ hlt),
    Nat.and_two_pow]
  have hpos : 0 < 2 ^ i := by positivity
  cases h : (T.toRaw v).testBit i
  · simp
  · simp only [Bool.toNat_true, one_mul, iff_true]
    omega

theorem num_to_str_bit (P : NumParams) (hT : 0 < P.T.bytes) (h4 : P.T.bytes ≤ 4)
    (e : nv_enum_bitmask) (hvec : (e.m_vec.length : Int) ≤ P.T.limits_max) (i : Nat)
    (hi : i < P.T.bits) (pretty : Bool) :
    nv_enum_bitmask.num_to_str P e (P.T.wrap (i : Int)) true pretty
      = some (nv_bitmask.spec_bit_name P e i) := by
  have hb : P.T.bits ≤ 32 := by unfold NumType.bits; omega
  have hwi : P.T.wrap (i : Int) = (i : Int) :=
    wrap_small P.T hT i (le_trans (by omega) (limits_max_ge P.T hT))
  have hwl : P.T.wrap (e.m_vec.length : Int) = (e.m_vec.length : Int) :=
    wrap_small P.T hT _ hvec
  obtain ⟨one, hone, hflag⟩ := shl_one_flag P.T h4 i hi
  unfold nv_enum_bitmask.num_to_str nv_bitmask.spec_bit_name
  rw [hwi, hwl]
  by_cases hmap : e.m_map ≠ []
  · simp only [hmap, ne_eq, not_false_eq_true, if_true, hone, hflag]
    cases nv_enum_bitmask.map_find (P.T.ofRaw (2 ^ i)) e.m_map <;> rfl
  · simp only [hmap, if_false]
    by_cases hlen : i < e.m_vec.length
    · have hne : e.m_vec ≠ [] := by
        intro h0
        rw [h0] at hlen
        simp at hlen
      have hc : e.m_vec ≠ [] ∧ (i : Int) < (e.m_vec.length : Int) := ⟨hne, by omega⟩
      have hnn : (0 : Int) ≤ (i : Int) := by omega
      simp only [hc, ne_eq, not_false_eq_true, and_self, if_true, hnn, Int.toNat_natCast]
      rw [List.getD_eq_getElem?_getD, List.getElem?_eq_getElem hlen]
      rfl
    · have hc : ¬ (e.m_vec ≠ [] ∧ (i : Int) < (e.m_vec.length : Int)) := by
        intro h
        omega
      rw [if_neg hc, List.getD_eq_getElem?_getD, List.getElem?_eq_none (by omega)]
      rfl

theorem to_string_step_eq (to_hex : Int → String) (P : NumParams) (hT : 0 < P.T.bytes)
    (h4 : P.T.bytes ≤ 4) (e : nv_enum_bitmask)
    (hvec : (e.m_vec.length : Int) ≤ P.T.limits_max) (pretty : Bool) (ret : String) (i : Nat)
    (hi : i < P.T.bits) :
    nv_bitmask.to_string_step to_hex P e pretty ret i
      = some (if (P.T.toRaw e.base.m_val).testBit i = true then
          (if ret ≠ "" then ret ++ (if pretty then " | " else "|") else ret)
            ++ nv_bitmask.spec_bit_piece to_hex P e i
        else ret) := by
  obtain ⟨one, hone, hflag⟩ := shl_one_flag P.T h4 i hi
  have hnum := num_to_str_bit P hT h4 e hvec i hi pretty
  have htest := bit_and_flag P.T e.base.m_val i hi
  unfold nv_bitmask.to_string_step
  simp only [hone, hflag, hnum]
  by_cases hbit : (P.T.toRaw e.base.m_val).testBit i = true
  · rw [if_pos (htest.mpr hbit), if_pos hbit]
    unfold nv_bitmask.spec_bit_piece
    by_cases hname : nv_bitmask.spec_bit_name P e i = ""
    · simp [hname]
    · simp [hname]
  · rw [if_neg (fun h => hbit (htest.mp h)), if_neg hbit]

theorem to_string_loop_cons (to_hex : Int → String) (P : NumParams) (e : nv_enum_bitmask)
    (pretty : Bool) (i : Nat) (rest : List Nat) (ret : String) :
    nv_bitmask.to_string_loop to_hex P e pretty (i :: rest) ret =
      match nv_bitmask.to_string_step to_hex P e pretty ret i with
      | none => none
      | some ret1 => nv_bitmask.to_string_loop to_hex P e pretty rest ret1 := rfl

theorem to_string_loop_eq (to_hex : Int → String) (P : NumParams) (hT : 0 < P.T.bytes)
    (h4 : P.T.bytes ≤ 4) (e : nv_enum_bitmask)
    (hvec : (e.m_vec.length : Int) ≤ P.T.limits_max) (pretty : Bool) (idx : List Nat)
    (hidx : ∀ i ∈ idx, i < P.T.bits) (ret : String) :
    nv_bitmask.to_string_loop to_hex P e pretty idx ret
      = some (nv_bitmask.join_from (if pretty then " | " else "|") ret
          ((idx.filter (fun i => (P.T.toRaw e.base.m_val).testBit i)).map
            (nv_bitmask.spec_bit_piece to_hex P e))) := by
  induction idx generalizing ret with
  | nil => rfl
  | cons i rest ih =>
    have hi : i < P.T.bits := hidx i (by simp)
    have hrest : ∀ j ∈ rest, j < P.T.bits := fun j hj => hidx j (by simp [hj])
    rw [to_string_loop_cons, to_string_step_eq to_hex P hT h4 e hvec pretty ret i hi]
    simp only
    rw [ih hrest]
    by_cases hbit : (P.T.toRaw e.base.m_val).testBit i = true
    · simp [hbit, nv_bitmask.join_from]
    · simp [hbit]

/-- The rendering of a bitmask over a storage type of at most 32 bits, whose table the
constructor accepted, is the rendering in the words of the specification: `0x` and the
hex digits of 0 for the value 0, else the set bits in increasing position, each shown by
its non-empty table name or else by the hex literal of the bit, joined by `|` (compact)
or ` | ` (pretty). -/
theorem bitmask_to_string_eq_spec (to_hex : Int → String) (P : NumParams)
    (hT : 0 < P.T.bytes) (h4 : P.T.bytes ≤ 4) (e : nv_enum_bitmask)
    (hvec : (e.m_vec.length : Int) ≤ P.T.limits_max) (pretty : Bool) :
    nv_bitmask.to_string to_hex P e pretty
      = some (nv_bitmask.spec_render to_hex P e pretty) := by
  unfold nv_bitmask.to_string nv_bitmask.spec_render
  by_cases h0 : e.base.m_val = 0
  · simp [h0]
  · rw [if_neg h0, if_neg h0]
    have hidx : ∀ i ∈ List.range (P.T.bytes * 8), i < P.T.bits := by
      intro i hi
      have := List.mem_range.mp hi
      unfold NumType.bits
      omega
    rw [to_string_loop_eq to_hex P hT h4 e hvec pretty _ hidx ""]
    congr 1
    unfold nv_bitmask.spec_set_bits
    apply join_from_empty
    intro p hp
    obtain ⟨i, -, rfl⟩ := List.mem_map.mp hp
    exact spec_bit_piece_ne_empty to_hex P e i

/-- C6 at a 64-bit storage type: rendering the value 1 of an `nv_bitmask<nv_u64>` runs
the loop up to index 63 and evaluates `1 << 32` on an `int`, which C++ leaves undefined,
while the same value of an 8-bit bitmask with flags `A`, `B` renders as claimed and
`0x03` renders as `A|B`. -/
theorem nv_bitmask_to_string_u64_undefined :
    nv_bitmask.to_string (fun _ => "01") nv_u64 bitmask_u64_one false = none ∧
    nv_bitmask.to_string (fun _ => "01") nv_u64 bitmask_u64_one true = none ∧
    nv_bitmask.to_string (fun _ => "01") nv_u8 (nv_enum_bitmask.assign bitmask_AB 3) false
      = some "A|B" ∧
    nv_bitmask.to_string (fun _ => "01") nv_u8 (nv_enum_bitmask.assign bitmask_AB 3) true
      = some "A | B" := by
  decide

/-! ## Theorems: text round trip of a bitmask -/

theorem vec_search_first (str : String) (vec : List String) (off i : Nat)
    (hi : i < vec.length) (hname : vec[i]? = some str)
    (hlow : ∀ j, j < i → vec[j]? ≠ some str) :
    nv_enum_bitmask.vec_search str vec off = some (off + i) := by
  induction vec generalizing off i with
  | nil => simp at hi
  | cons s rest ih =>
    cases i with
    | zero =>
      simp only [List.getElem?_cons_zero, Option.some.injEq] at hname
      simp [nv_enum_bitmask.vec_search, hname]
    | succ k =>
      have h0 := hlow 0 (by omega)
      simp only [List.getElem?_cons_zero, ne_eq, Option.some.injEq] at h0
      simp only [nv_enum_bitmask.vec_search, h0, if_false]
      simp only [List.getElem?_cons_succ] at hname
      have hlow' : ∀ j, j < k → rest[j]? ≠ some str := by
        intro j hj
        have := hlow (j + 1) (by omega)
        simpa using this
      have := ih (off + 1) k (by simpa using hi) hname hlow'
      rw [this]
      congr 1
      omega

theorem range_filter_lt (n i : Nat) (hi : n ≤ i) :
    (List.range n).filter (fun j => decide (j = i)) = [] := by
  rw [List.filter_eq_nil_iff]
  intro j hj
  have := List.mem_range.mp hj
  simp only [decide_eq_true_eq]
  omega

theorem range_filter_eq (n i : Nat) (hi : i < n) :
    (List.range n).filter (fun j => decide (j = i)) = [i] := by
  induction n with
  | zero => omega
  | succ k ih =>
    rw [List.range_succ, List.filter_append]
    by_cases hk : i = k
    · subst hk
      rw [range_filter_lt i i (le_refl _)]
      simp
    · rw [ih (by omega)]
      have : ¬ k = i := fun h => hk h.symm
      simp [this]

theorem vec_take_wrap (P : NumParams) (hT : 0 < P.T.bytes) (e : nv_enum_bitmask)
    (hvec : (e.m_vec.length : Int) ≤ P.T.limits_max) :
    e.m_vec.take (P.T.wrap e.m_vec.length).toNat = e.m_vec := by
  rw [wrap_small P.T hT _ hvec, Int.toNat_natCast, List.take_length]

/-- In a vec table that the constructor accepted, a name that differs from all names at
lower indices is resolved by `str_to_num` to the flag of its own bit position. -/
theorem str_to_num_vec_bit (P : NumParams) (hT : 0 < P.T.bytes) (h4 : P.T.bytes ≤ 4)
    (e : nv_enum_bitmask) (hvec : (e.m_vec.length : Int) ≤ P.T.limits_max) (i : Nat)
    (hi : i < P.T.bits) (str : String) (hname : e.m_vec[i]? = some str)
    (hlow : ∀ j, j < i → e.m_vec[j]? ≠ some str) :
    nv_enum_bitmask.str_to_num P e str true = some (some (P.T.ofRaw (2 ^ i))) := by
  have hlen : i < e.m_vec.length := by
    by_contra h
    rw [List.getElem?_eq_none (by omega)] at hname
    cases hname
  obtain ⟨one, hone, hflag⟩ := shl_one_flag P.T h4 i hi
  unfold nv_enum_bitmask.str_to_num
  rw [vec_take_wrap P hT e hvec, vec_search_first str e.m_vec 0 i hlen hname hlow]
  simp [hone, hflag]

theorem bitmask_to_str_single_bit (to_hex : Int → String) (P : NumParams)
    (hT : 0 < P.T.bytes) (h4 : P.T.bytes ≤ 4) (e : nv_enum_bitmask)
    (hvec : (e.m_vec.length : Int) ≤ P.T.limits_max) (i : Nat) (hi : i < P.T.bits)
    (hv : e.base.m_val = P.T.ofRaw (2 ^ i)) :
    nv_bitmask.to_str to_hex P e = some (nv_bitmask.spec_bit_piece to_hex P e i) := by
  have hlt : (2 : Nat) ^ i < 2 ^ P.T.bits := Nat.pow_lt_pow_right (by decide) hi
  have hraw : P.T.toRaw e.base.m_val = 2 ^ i := by rw [hv, toRaw_ofRaw P.T _ hlt]
  have hne0 : e.base.m_val ≠ 0 := by
    rw [hv]
    intro h0
    have := (ofRaw_eq_zero_iff P.T _ hlt).mp h0
    have hpos : 0 < 2 ^ i := by positivity
    omega
  unfold nv_bitmask.to_str
  rw [bitmask_to_string_eq_spec to_hex P hT h4 e hvec false]
  unfold nv_bitmask.spec_render nv_bitmask.spec_set_bits
  rw [if_neg hne0, hraw]
  have hfilter : (List.range (P.T.bytes * 8)).filter (fun j => (2 ^ i).testBit j) = [i] := by
    have hi' : i < P.T.bytes * 8 := by unfold NumType.bits at hi; omega
    have hfun : (fun j => (2 ^ i).testBit j) = (fun j => decide (j = i)) := by
      funext j
      rw [Nat.testBit_two_pow]
      by_cases h : i = j
      · simp [h]
      · have h' : ¬ j = i := fun hh => h hh.symm
        simp [h, h']
    rw [hfun]
    exact range_filter_eq (P.T.bytes * 8) i hi'
  rw [hfilter]
  simp [String.intercalate, String.intercalate.go]

theorem lex_digits_zeros (b : Nat) (hb : 0 < b) (k : Nat) :
    lex_digits b 0 (List.replicate k '0') = some 0 := by
  induction k with
  | zero => rfl
  | succ k ih =>
    have h0 : digit_value '0' = some 0 := by decide
    simp only [List.replicate_succ, lex_digits, h0, hb, if_true]
    simpa using ih

/-- A hex literal, `0x` followed by the hex digits of a non-negative value within the
range of the storage type, with any number of leading zeros, is read back by
`lexical_cast` as that value. -/
theorem lexical_cast_hex_literal (T : NumType) (n k : Nat) (hn : (n : Int) ≤ T.limits_max) :
    lexical_cast T ("0x" ++ String.mk (List.replicate k '0' ++ Nat.toDigits 16 n)) 0
      = some (n : Int) := by
  have hdata : ("0x" ++ String.mk (List.replicate k '0' ++ Nat.toDigits 16 n)).data
      = '0' :: 'x' :: (List.replicate k '0' ++ Nat.toDigits 16 n) := by
    simp [String.data_append]
  have hdig : lex_unsigned 16 (List.replicate k '0' ++ Nat.toDigits 16 n) = some n := by
    have h16 := lex_unsigned_toDigits 16 (by decide) (by decide) n
    unfold lex_unsigned at h16 ⊢
    cases hd : Nat.toDigits 16 n with
    | nil => rw [hd] at h16; cases h16
    | cons c cs =>
      rw [hd] at h16
      simp only at h16
      have happ : lex_digits 16 0 (List.replicate k '0' ++ c :: cs) = some n := by
        rw [lex_digits_append, lex_digits_zeros 16 (by decide) k]
        exact h16
      cases hk : List.replicate k '0' ++ c :: cs with
      | nil => simp at hk
      | cons c1 cs1 =>
        simp only
        rw [← hk]
        exact happ
  have hmin := limits_min_nonpos T
  unfold lexical_cast
  rw [hdata]
  have hsign : lex_sign ('0' :: 'x' :: (List.replicate k '0' ++ Nat.toDigits 16 n))
      = (false, '0' :: 'x' :: (List.replicate k '0' ++ Nat.toDigits 16 n)) := rfl
  have hradix : lex_radix 0 ('0' :: 'x' :: (List.replicate k '0' ++ Nat.toDigits 16 n))
      = (16, List.replicate k '0' ++ Nat.toDigits 16 n) := rfl
  simp only [hsign, hradix, hdig]
  have hr : T.limits_min ≤ (n : Int) ∧ (n : Int) ≤ T.limits_max := ⟨by omega, hn⟩
  simp [hr]

theorem lexical_cast_inRange (T : NumType) (s : String) (b : Nat) (n : Int)
    (h : lexical_cast T s b = some n) : T.inRange n := by
  unfold lexical_cast at h
  generalize lex_sign s.data = sb at h
  simp only at h
  cases hl : lex_unsigned (lex_radix b sb.2).1 (lex_radix b sb.2).2 with
  | none => rw [hl] at h; cases h
  | some m =>
    rw [hl] at h
    simp only at h
    by_cases hr : T.limits_min ≤ (if sb.1 = true then -(m : Int) else (m : Int)) ∧
        (if sb.1 = true then -(m : Int) else (m : Int)) ≤ T.limits_max
    · rw [if_pos hr] at h
      simp only [Option.some.injEq] at h
      rw [← h]
      exact hr
    · rw [if_neg hr] at h
      cases h

theorem enum_parse_unfold (P : NumParams) (hT : 0 < P.T.bytes) (e : nv_enum_bitmask)
    (hvec : (e.m_vec.length : Int) ≤ P.T.limits_max) (s : String) :
    nv_enum_bitmask.str_to_num P e s false =
      match nv_enum_bitmask.vec_search s e.m_vec 0 with
      | some i => some (some (i : Int))
      | none =>
        match nv_enum_bitmask.map_search s e.m_map with
        | some k => some (some k)
        | none => some (lexical_cast P.T s 0) := by
  unfold nv_enum_bitmask.str_to_num
  rw [vec_take_wrap P hT e hvec]
  cases nv_enum_bitmask.vec_search s e.m_vec 0 <;> simp

/-- C8, as the code has it: `nv_enum::parse(s)` stores the index of the first vec entry
equal to `s`, else the key of the first map entry named `s`, and succeeds; when `s`
matches no table name it succeeds exactly when `s` lexes as a number `n` of the storage
type and then stores `n`, without the `[Min, Max]` check of `nv_num::parse`. It agrees
with `nv_num::parse(s)` in result and stored value when every number that `s` can lex to
lies in `[Min, Max]`, in particular for every unconstrained `T`. -/
theorem nv_enum_parse_spec (P : NumParams) (hT : 0 < P.T.bytes) (e : nv_enum_bitmask)
    (hvec : (e.m_vec.length : Int) ≤ P.T.limits_max) (s : String) :
    (∀ i, nv_enum_bitmask.vec_search s e.m_vec 0 = some i →
      nv_enum.parse P e s = some (e.assign (i : Int), true)) ∧
    (nv_enum_bitmask.vec_search s e.m_vec 0 = none →
      ∀ k, nv_enum_bitmask.map_search s e.m_map = some k →
        nv_enum.parse P e s = some (e.assign k, true)) ∧
    (nv_enum_bitmask.vec_search s e.m_vec 0 = none →
      nv_enum_bitmask.map_search s e.m_map = none →
      (∀ n, lexical_cast P.T s 0 = some n → nv_enum.parse P e s = some (e.assign n, true)) ∧
      (lexical_cast P.T s 0 = none → nv_enum.parse P e s = some (e, false)) ∧
      ((∀ n, lexical_cast P.T s 0 = some n → P.Min ≤ n ∧ n ≤ P.Max) →
        nv_enum.parse P e s
          = some ({ e with base := (nv_num.parse P e.base s).1 }, (nv_num.parse P e.base s).2)) ∧
      (P.Min = P.T.limits_min → P.Max = P.T.limits_max →
        nv_enum.parse P e s
          = some ({ e with base := (nv_num.parse P e.base s).1 },
              (nv_num.parse P e.base s).2))) := by
  have hu := enum_parse_unfold P hT e hvec s
  have hagree : (∀ n, lexical_cast P.T s 0 = some n → P.Min ≤ n ∧ n ≤ P.Max) →
      nv_enum_bitmask.vec_search s e.m_vec 0 = none →
      nv_enum_bitmask.map_search s e.m_map = none →
      nv_enum.parse P e s
        = some ({ e with base := (nv_num.parse P e.base s).1 },
            (nv_num.parse P e.base s).2) := by
    intro hall hv hm
    unfold nv_enum.parse nv_num.parse
    rw [hu, hv, hm]
    cases hl : lexical_cast P.T s 0 with
    | none => rfl
    | some n =>
      have hr := hall n hl
      have hnot : ¬ (n < P.Min ∨ n > P.Max) := by omega
      simp only [hnot, if_false]
      rfl
  refine ⟨?_, ?_, ?_⟩
  · intro i hi
    unfold nv_enum.parse
    rw [hu, hi]
  · intro hv k hk
    unfold nv_enum.parse
    rw [hu, hv, hk]
  · intro hv hm
    refine ⟨?_, ?_, fun hall => hagree hall hv hm, ?_⟩
    · intro n hn
      unfold nv_enum.parse
      rw [hu, hv, hm, hn]
    · intro hn
      unfold nv_enum.parse
      rw [hu, hv, hm, hn]
    · intro hmin hmax
      apply hagree _ hv hm
      intro n hn
      have := lexical_cast_inRange P.T s 0 n hn
      rw [hmin, hmax]
      exact this

/-- Witness for the amended C8: the name `on` of a two-name vec table. -/
theorem nv_enum_parse_spec_witness :
    0 < nv_u8.T.bytes ∧ (enum_off_on.m_vec.length : Int) ≤ nv_u8.T.limits_max ∧
    nv_enum_bitmask.vec_search "on" enum_off_on.m_vec 0 = some 1 ∧
    nv_enum.parse nv_u8 enum_off_on "on" = some (enum_off_on.assign ((1 : Nat) : Int), true) :=
  ⟨by decide, by decide, by decide,
    (nv_enum_parse_spec nv_u8 (by decide) enum_off_on (by decide) "on").1 1 (by decide)⟩

/-- Counterexample to C8 as stated: on `nv_enum<nv_u8_m<3>>` the text `5` matches no
table name; `nv_enum::parse("5")` succeeds and stores 5, whereas the primitive
`nv_num::parse("5")` of `nv_u8_m<3>` fails and leaves the value unset. -/
theorem nv_enum_parse_range_counterexample :
    nv_enum_bitmask.vec_search "5" enum_u8_m3.m_vec 0 = none ∧
    nv_enum_bitmask.map_search "5" enum_u8_m3.m_map = none ∧
    nv_enum.parse (nv_u8_m 3) enum_u8_m3 "5" = some (enum_u8_m3.assign 5, true) ∧
    nv_num.parse (nv_u8_m 3) enum_u8_m3.base "5" = (enum_u8_m3.base, false) := by
  decide

/-- The in-bounds part of C9: when the stored value is not negative, or the table is a
map, or there is no table, `nv_enum::to_string` returns the non-empty table name of the
value and otherwise the type name followed by the decimal value in parentheses, the same
in compact and pretty mode. -/
theorem enum_to_string_in_bounds (P : NumParams) (hT : 0 < P.T.bytes) (e : nv_enum_bitmask)
    (hvec : (e.m_vec.length : Int) ≤ P.T.limits_max) (hval : P.T.inRange e.base.m_val)
    (hb : 0 ≤ e.base.m_val ∨ e.m_map ≠ [] ∨ e.m_vec = []) (pretty : Bool) :
    nv_enum.to_string P e pretty =
      some (if (if e.m_map ≠ [] then (nv_enum_bitmask.map_find e.base.m_val e.m_map).getD ""
                else e.m_vec.getD e.base.m_val.toNat "") ≠ ""
            then (if e.m_map ≠ [] then (nv_enum_bitmask.map_find e.base.m_val e.m_map).getD ""
                  else e.m_vec.getD e.base.m_val.toNat "")
            else e.m_name ++ "(" ++ std_to_string e.base.m_val ++ ")") := by
  have hwl : P.T.wrap (e.m_vec.length : Int) = (e.m_vec.length : Int) :=
    wrap_small P.T hT _ hvec
  have hwv : P.T.wrap e.base.m_val = e.base.m_val := wrap_inRange P.T hT _ hval
  unfold nv_enum.to_string nv_enum_bitmask.num_to_str
  rw [hwl]
  by_cases hmap : e.m_map ≠ []
  · simp only [hmap, ne_eq, not_false_eq_true, if_true, Bool.false_eq_true, if_false, hwv,
      nv_num.num]
    cases nv_enum_bitmask.map_find e.base.m_val e.m_map <;> rfl
  · rw [if_neg hmap, if_neg hmap]
    by_cases hc : e.m_vec ≠ [] ∧ e.base.m_val < (e.m_vec.length : Int)
    · have hnn : 0 ≤ e.base.m_val := by
        rcases hb with h | h | h
        · exact h
        · exact absurd h hmap
        · exact absurd h hc.1
      have hlt : e.base.m_val.toNat < e.m_vec.length := by omega
      rw [if_pos hc, if_pos hnn, List.getD_eq_getElem?_getD, List.getElem?_eq_getElem hlt]
      simp only [Option.getD_some, nv_num.num]
    · rw [if_neg hc]
      have hd : e.m_vec.getD e.base.m_val.toNat "" = "" := by
        by_cases hne : e.m_vec = []
        · rw [hne]; rfl
        · have hge : ¬ e.base.m_val < (e.m_vec.length : Int) := fun h => hc ⟨hne, h⟩
          rw [List.getD_eq_getElem?_getD, List.getElem?_eq_none (by omega)]
          rfl
      rw [hd]
      simp only [ne_eq, not_true_eq_false, if_false, nv_num.num]

/-- C9 at a negative stored value: an `nv_enum<nv_i8>` with the vec table `a`, `b`
holding -1 passes the test `num < num_type(m_vec.size())` and subscripts the vector
with -1, outside its bounds, so `to_string` has no defined result, in compact and in
pretty mode; the claimed rendering would be `e(-1)`. -/
theorem nv_enum_to_string_negative_out_of_bounds :
    nv_i8.T.inRange enum_i8_neg.base.m_val ∧
    nv_enum.to_string nv_i8 enum_i8_neg false = none ∧
    nv_enum.to_string nv_i8 enum_i8_neg true = none ∧
    nv_enum.to_string nv_i8 (enum_i8_neg.assign 1) false = some "b" ∧
    nv_enum.to_string nv_i8 (enum_i8_neg.assign 2) false = some "e(2)" := by
  decide

/-! ## Theorems: list append -/

theorem nat_repr_injective (i j : Nat) (h : Nat.repr i = Nat.repr j) : i = j := by
  have hd : Nat.toDigits 10 i = Nat.toDigits 10 j := by
    have := congrArg String.data h
    simpa [repr_data] using this
  have hi := lex_unsigned_toDigits 10 (by decide) (by decide) i
  have hj := lex_unsigned_toDigits 10 (by decide) (by decide) j
  rw [hd, hj] at hi
  exact (Option.some.inj hi).symm

theorem std_to_string_nat (n : Nat) : std_to_string (n : Int) = Nat.repr n := by
  unfold std_to_string
  have : ¬ ((n : Int) < 0) := by omega
  simp [this]

theorem std_to_string_nat_injective (i j : Nat)
    (h : std_to_string (i : Int) = std_to_string (j : Int)) : i = j := by
  rw [std_to_string_nat, std_to_string_nat] at h
  exact nat_repr_injective i j h

theorem lexical_cast_minus_one (I : NumType) (hu : I.signed = false) :
    lexical_cast I "-1" 10 = none := by
  have hdata : "-1".data = ['-', '1'] := rfl
  have hlex : lex_unsigned 10 ['1'] = some 1 := by decide
  unfold lexical_cast
  rw [hdata]
  have hrad : lex_radix 10 (lex_sign ['-', '1']).2 = (10, ['1']) := by decide
  have hsign : (lex_sign ['-', '1']).1 = true := by decide
  simp only [hrad, hlex, hsign, if_true]
  simp [NumType.limits_min, hu]

theorem compound_set_cons {α : Type} (E : nv_val_ops α) (p : String × α)
    (rest : List (String × α)) (name val : String) :
    nv_compound.set E (p :: rest) name val =
      if p.1 = name then
        ((p.1, (E.parse p.2 val).1) :: rest,
          if (E.parse p.2 val).2 then Except.ok () else Except.error nv_error.invalid_text)
      else ((p :: (nv_compound.set E rest name val).1), (nv_compound.set E rest name val).2) :=
  rfl

theorem compound_set_append_new {α : Type} (E : nv_val_ops α) (parts : List (String × α))
    (name val : String) (v : α) (hfresh : ∀ p ∈ parts, p.1 ≠ name) :
    nv_compound.set E (parts ++ [(name, v)]) name val =
      (parts ++ [(name, (E.parse v val).1)],
        if (E.parse v val).2 then Except.ok () else Except.error nv_error.invalid_text) := by
  induction parts with
  | nil => simp [nv_compound.set]
  | cons p rest ih =>
    have hp : p.1 ≠ name := hfresh p (by simp)
    have hrest : ∀ q ∈ rest, q.1 ≠ name := fun q hq => hfresh q (by simp [hq])
    rw [List.cons_append, compound_set_cons, if_neg hp, ih hrest]
    rfl

/-- C10: a list whose parts are initialized with `n` elements (names as `definition()`
gives them). If `n` is below the maximum of the unsigned count type `I`, `set("-1", text)`
appends exactly one element named by the decimal text of `n`, keeps the first `n` parts
as they are, makes the count `n + 1` and passes `text` to `parse` of the new last element
(the invalid-text error is raised when that `parse` returns false); if `n` has reached
the maximum of `I` it raises the capacity error and changes nothing. Three appends to an
empty list give count 3 and the names `0`, `1`, `2`. -/
theorem nv_plist_set_append {α : Type} (E : nv_val_ops α) (I : NumType) (hI : 0 < I.bytes)
    (hu : I.signed = false) (a : nv_array_generic α) (n : Nat) (hcount : a.m_count = n)
    (hparts : a.m_parts.map Prod.fst = (nv_array_generic.definition E a).map Prod.fst)
    (text : String) :
    ((n : Int) < I.limits_max →
      nv_array_generic.set E I true a "-1" text =
        ({ a with
            m_parts := a.m_parts ++ [(std_to_string (n : Int), (E.parse E.make text).1)],
            m_count := n + 1 },
          if (E.parse E.make text).2 then Except.ok ()
          else Except.error nv_error.invalid_text)) ∧
    (I.limits_max ≤ (n : Int) →
      nv_array_generic.set E I true a "-1" text
        = (a, Except.error nv_error.capacity_exceeded)) ∧
    (((nv_array_generic.set (nv_num.ops nv_u32) uint16_t true
        (nv_array_generic.set (nv_num.ops nv_u32) uint16_t true
          (nv_array_generic.set (nv_num.ops nv_u32) uint16_t true plist_empty
            "-1" "10").1 "-1" "20").1 "-1" "30").1.m_count = 3) ∧
      ((nv_array_generic.set (nv_num.ops nv_u32) uint16_t true
        (nv_array_generic.set (nv_num.ops nv_u32) uint16_t true
          (nv_array_generic.set (nv_num.ops nv_u32) uint16_t true plist_empty
            "-1" "10").1 "-1" "20").1 "-1" "30").1.m_parts.map Prod.fst = ["0", "1", "2"])) := by
  have hlen : a.m_parts.length = n := by
    have := congrArg List.length hparts
    simp only [nv_array_generic.definition, List.length_map, List.length_range] at this
    rw [this, hcount]
  have hnames : ∀ p ∈ a.m_parts, p.1 ≠ std_to_string (n : Int) := by
    intro p hp hname
    have hmem : p.1 ∈ a.m_parts.map Prod.fst := List.mem_map_of_mem _ hp
    rw [hparts] at hmem
    obtain ⟨q, hq, hq1⟩ := List.mem_map.mp hmem
    unfold nv_array_generic.definition at hq
    obtain ⟨j, hj, hjq⟩ := List.mem_map.mp hq
    have hjn : j < n := by
      have := List.mem_range.mp hj
      omega
    rw [← hjq] at hq1
    simp only at hq1
    rw [hname] at hq1
    have := std_to_string_nat_injective j n hq1
    omega
  have hin : (match lexical_cast I "-1" 10 with
      | some index => decide (index < (a.m_count : Int))
      | none => false) = false := by
    rw [lexical_cast_minus_one I hu]
  refine ⟨?_, ?_, by decide, by decide⟩
  · intro hlt
    have hcap : ¬ ((a.m_parts.length : Int) ≥ I.limits_max) := by rw [hlen]; omega
    have hwrap : I.wrap (((a.m_parts ++ [(std_to_string (a.m_count : Int), E.make)]).length
        : Nat) : Int) = ((n + 1 : Nat) : Int) := by
      rw [List.length_append, hlen]
      exact wrap_small I hI (n + 1) (by push_cast; omega)
    unfold nv_array_generic.set
    simp only [hin, Bool.false_eq_true, if_false, true_and, if_true, hcap, hwrap,
      Int.toNat_natCast]
    have hsub : (((n + 1 : Nat) : Int) - 1) = (n : Int) := by push_cast; omega
    rw [hsub, hcount, compound_set_append_new E a.m_parts _ text E.make hnames]
  · intro hge
    have hcap : (a.m_parts.length : Int) ≥ I.limits_max := by rw [hlen]; omega
    unfold nv_array_generic.set
    simp only [hin, Bool.false_eq_true, if_false, true_and, if_true, hcap]

/-- Witness for C10: appending to the empty list with a 16-bit count. -/
theorem nv_plist_set_append_witness :
    0 < uint16_t.bytes ∧ uint16_t.signed = false ∧ plist_empty.m_count = 0 ∧
    plist_empty.m_parts.map Prod.fst
      = (nv_array_generic.definition (nv_num.ops nv_u32) plist_empty).map Prod.fst ∧
    ((0 : Nat) : Int) < uint16_t.limits_max ∧
    nv_array_generic.set (nv_num.ops nv_u32) uint16_t true plist_empty "-1" "10" =
      ({ plist_empty with
          m_parts := plist_empty.m_parts ++
            [(std_to_string ((0 : Nat) : Int),
              ((nv_num.ops nv_u32).parse (nv_num.ops nv_u32).make "10").1)],
          m_count := 0 + 1 },
        if ((nv_num.ops nv_u32).parse (nv_num.ops nv_u32).make "10").2 then Except.ok ()
        else Except.error nv_error.invalid_text) :=
  ⟨by decide, by decide, by decide, by decide, by decide,
    (nv_plist_set_append (nv_num.ops nv_u32) uint16_t (by decide) (by decide) plist_empty 0
      (by decide) (by decide) "10").1 (by decide)⟩

/-! ## Theorems: list append with rejected text -/

theorem plist_set_grow {α : Type} (E : nv_val_ops α) (I : NumType) (hI : 0 < I.bytes)
    (hu : I.signed = false) (a : nv_array_generic α) (n : Nat) (hcount : a.m_count = n)
    (hparts : a.m_parts.map Prod.fst = (nv_array_generic.definition E a).map Prod.fst)
    (text : String) (hlt : (n : Int) < I.limits_max) :
    nv_array_generic.set E I true a "-1" text =
      ({ a with
          m_parts := a.m_parts ++ [(std_to_string (n : Int), (E.parse E.make text).1)],
          m_count := n + 1 },
        if (E.parse E.make text).2 then Except.ok ()
        else Except.error nv_error.invalid_text) := by
  have hlen : a.m_parts.length = n := by
    have := congrArg List.length hparts
    simp only [nv_array_generic.definition, List.length_map, List.length_range] at this
    rw [this, hcount]
  have hnames : ∀ p ∈ a.m_parts, p.1 ≠ std_to_string (n : Int) := by
    intro p hp hname
    have hmem : p.1 ∈ a.m_parts.map Prod.fst := List.mem_map_of_mem _ hp
    rw [hparts] at hmem
    obtain ⟨q, hq, hq1⟩ := List.mem_map.mp hmem
    unfold nv_array_generic.definition at hq
    obtain ⟨j, hj, hjq⟩ := List.mem_map.mp hq
    have hjn : j < n := by
      have := List.mem_range.mp hj
      omega
    rw [← hjq] at hq1
    simp only at hq1
    rw [hname] at hq1
    have := std_to_string_nat_injective j n hq1
    omega
  have hin : (match lexical_cast I "-1" 10 with
      | some index => decide (index < (a.m_count : Int))
      | none => false) = false := by
    rw [lexical_cast_minus_one I hu]
  have hcap : ¬ ((a.m_parts.length : Int) ≥ I.limits_max) := by rw [hlen]; omega
  have hwrap : I.wrap (((a.m_parts ++ [(std_to_string (a.m_count : Int), E.make)]).length
      : Nat) : Int) = ((n + 1 : Nat) : Int) := by
    rw [List.length_append, hlen]
    exact wrap_small I hI (n + 1) (by push_cast; omega)
  unfold nv_array_generic.set
  simp only [hin, Bool.false_eq_true, if_false, true_and, if_true, hcap, hwrap,
    Int.toNat_natCast]
  have hsub : (((n + 1 : Nat) : Int) - 1) = (n : Int) := by push_cast; omega
  rw [hsub, hcount, compound_set_append_new E a.m_parts _ text E.make hnames]

theorem nv_num_parse_rejected (P : NumParams) (x : nv_num) (s : String)
    (h : (nv_num.parse P x s).2 = false) : (nv_num.parse P x s).1 = x := by
  unfold nv_num.parse at h ⊢
  cases hl : lexical_cast P.T s 0 with
  | none => simp
  | some val =>
    rw [hl] at h
    by_cases hr : val < P.Min ∨ val > P.Max
    · simp [hr]
    · simp [hr] at h

/-- C11, as the code has it: on a list whose parts are initialized with `n` elements, `n`
below the maximum of the unsigned count type, `set("-1", text)` with a text that `parse`
of the element type rejects raises the invalid-text error after the list has grown: the
count is `n + 1` and the parts are the `n` elements as they were, followed by one new
element named by the decimal text of `n`, in the state the rejected `parse` left a fresh
element in; for a numeric element type that is the unset default element. -/
theorem nv_plist_set_append_rejected {α : Type} (E : nv_val_ops α) (I : NumType)
    (hI : 0 < I.bytes) (hu : I.signed = false) (a : nv_array_generic α) (n : Nat)
    (hcount : a.m_count = n)
    (hparts : a.m_parts.map Prod.fst = (nv_array_generic.definition E a).map Prod.fst)
    (hlt : (n : Int) < I.limits_max) (text : String)
    (hrej : (E.parse E.make text).2 = false) :
    (nv_array_generic.set E I true a "-1" text).2 = Except.error nv_error.invalid_text ∧
    (nv_array_generic.set E I true a "-1" text).1.m_count = n + 1 ∧
    (nv_array_generic.set E I true a "-1" text).1.m_parts
      = a.m_parts ++ [(std_to_string (n : Int), (E.parse E.make text).1)] ∧
    (nv_array_generic.set E I true a "-1" text).1.m_parts.length = a.m_parts.length + 1 ∧
    (∀ P : NumParams, (nv_num.parse P (nv_num.ops P).make text).2 = false →
      (nv_num.parse P (nv_num.ops P).make text).1 = nv_num.mk_default false) := by
  rw [plist_set_grow E I hI hu a n hcount hparts text hlt]
  refine ⟨by simp [hrej], rfl, rfl, by simp, ?_⟩
  intro P hP
  exact nv_num_parse_rejected P _ text hP

/-- Witness for the amended C11: the text `256` appended to an empty list of 8-bit
unsigned numbers. -/
theorem nv_plist_set_append_rejected_witness :
    0 < uint8_t.bytes ∧ uint8_t.signed = false ∧ plist_u8_empty.m_count = 0 ∧
    ((nv_num.ops nv_u8).parse (nv_num.ops nv_u8).make "256").2 = false ∧
    (nv_array_generic.set (nv_num.ops nv_u8) uint8_t true plist_u8_empty "-1" "256").2
      = Except.error nv_error.invalid_text ∧
    (nv_array_generic.set (nv_num.ops nv_u8) uint8_t true plist_u8_empty "-1" "256").1.m_count
      = 0 + 1 :=
  ⟨by decide, by decide, by decide, by decide,
    (nv_plist_set_append_rejected (nv_num.ops nv_u8) uint8_t (by decide) (by decide)
      plist_u8_empty 0 (by decide) (by decide) (by decide) "256" (by decide)).1,
    (nv_plist_set_append_rejected (nv_num.ops nv_u8) uint8_t (by decide) (by decide)
      plist_u8_empty 0 (by decide) (by decide) (by decide) "256" (by decide)).2.1⟩

/-- Counterexample to C11 as stated: `set("-1", "256")` on an empty list of 8-bit unsigned
numbers raises the invalid-text error, and afterwards the count is 1 and the list has one
(unset) element named `0`; the list is not what it was before the call. -/
theorem nv_plist_set_append_not_atomic_counterexample :
    nv_array_generic.set (nv_num.ops nv_u8) uint8_t true plist_u8_empty "-1" "256"
      = ({ plist_u8_empty with m_count := 1, m_parts := [("0", nv_num.mk_default false)] },
          Except.error nv_error.invalid_text) ∧
    (nv_array_generic.set (nv_num.ops nv_u8) uint8_t true plist_u8_empty "-1" "256").1
      ≠ plist_u8_empty := by
  decide

/-! ## Theorems: binary form of a list -/

/-- C12 on the alias as the header declares it: `nv_p16list<T>` is `nv_plist<T, uint8_t>`,
so a list of three `nv_u32` elements is written with a 1-byte count, 13 bytes in all, and
`bytes()` of an empty list is 1; with a 16-bit count type the same list is written as
`00 03` and the elements, 14 bytes. -/
theorem nv_p16list_count_is_one_byte :
    nv_p16list_count.bytes = 1 ∧
    nv_array_generic.write (nv_num.ops nv_u32) nv_p16list_count true plist_three []
      = Except.ok [3, 0, 0, 0, 10, 0, 0, 0, 20, 0, 0, 0, 30] ∧
    nv_array_generic.bytes nv_p16list_count true plist_empty = 1 ∧
    nv_array_generic.write (nv_num.ops nv_u32) uint16_t true plist_three []
      = Except.ok [0, 3, 0, 0, 0, 10, 0, 0, 0, 20, 0, 0, 0, 30] ∧
    nv_array_generic.bytes uint16_t true plist_empty = 2 := by
  decide

theorem count_read (I : NumType) (hI : 0 < I.bytes) (n : Nat)
    (hn : (n : Int) ≤ I.limits_max) (more : List Nat) (x : Int) :
    nv_num.read_num (NumParams.plain I true) (istream.good (wire_encode I true (n : Int) ++ more)) x
      = (istream.good more, (n : Int)) := by
  have h := istream_read_append (wire_encode I true (n : Int)) more
  rw [wire_encode_length] at h
  have hr : I.inRange (n : Int) := ⟨le_trans (limits_min_nonpos I) (by omega), hn⟩
  simp only [nv_num.read_num, NumParams.plain, h, wire_decode_encode I hI true _ hr]

theorem read_parts_nil {α : Type} (E : nv_val_ops α) (tolerant : Bool) (width b : Nat)
    (st : Bool) (is : istream) :
    nv_compound.read_parts E tolerant width [] b st is = ⟨[], b, st, is, none⟩ := rfl

/-- C14, as the code has it: a fresh, empty list (count 0, no parts, not set) that reads
from a stream with fewer than `sizeof(I)` bytes left, end-of-data included, raises no hard
error, leaves the stream failed and returns at once: the list is what it was, so
`is_set()` is still false and the count is 0. The list becomes set but empty when the
count field can be read and is 0. -/
theorem nv_plist_read_no_count {α : Type} (E : nv_val_ops α) (I : NumType) (hI : 0 < I.bytes)
    (a : nv_array_generic α) (hcount : a.m_count = 0) (hparts : a.m_parts = [])
    (hset : a.m_set = false) :
    (∀ is : istream, is.remaining < I.bytes →
      nv_array_generic.read E I true a is = (a, istream.failed, none) ∧
      (nv_array_generic.read E I true a is).1.m_set = false ∧
      (nv_array_generic.read E I true a is).1.m_count = 0) ∧
    (∀ rest : List Nat,
      nv_array_generic.read E I true a (istream.good (wire_encode I true 0 ++ rest))
        = ({ a with m_bytes := 0, m_set := true }, istream.good rest, none)) := by
  constructor
  · intro is hlt
    have hfail : nv_num.read_num (NumParams.plain I true) is ((a.m_count : Nat) : Int)
        = (istream.failed, ((a.m_count : Nat) : Int)) := by
      cases is with
      | failed => simp [nv_num.read_num, istream.read]
      | good d =>
        simp only [istream.remaining] at hlt
        have hn : ¬ I.bytes ≤ d.length := by omega
        simp [nv_num.read_num, istream.read, NumParams.plain, hn]
    have hread : nv_array_generic.read E I true a is = (a, istream.failed, none) := by
      unfold nv_array_generic.read
      rw [hcount] at hfail
      simp only [hcount, hfail, istream.fail, and_self, if_true]
    rw [hread]
    exact ⟨rfl, hset, hcount⟩
  · intro rest
    have hc := count_read I hI 0 (by
      have := limits_max_ge I hI
      simp only [Nat.cast_zero]
      omega) rest ((a.m_count : Nat) : Int)
    simp only [Nat.cast_zero] at hc
    unfold nv_array_generic.read
    simp only [hcount, Nat.cast_zero, hc, istream.fail, Bool.false_eq_true, and_false,
      if_false, true_and, if_true]
    simp only [nv_compound.read, nv_compound.init, nv_array_generic.definition, hparts,
      List.isEmpty_nil, or_true, if_true, Int.toNat_zero, List.range_zero, List.map_nil,
      read_parts_nil]
    cases a
    simp_all [read_parts_nil]

/-- Witness for the amended C14: the empty list of `nv_u32` with a 16-bit count. -/
theorem nv_plist_read_no_count_witness :
    0 < uint16_t.bytes ∧ plist_empty.m_count = 0 ∧ plist_empty.m_parts = [] ∧
    plist_empty.m_set = false ∧ (istream.good []).remaining < uint16_t.bytes ∧
    nv_array_generic.read (nv_num.ops nv_u32) uint16_t true plist_empty (istream.good [])
      = (plist_empty, istream.failed, none) :=
  ⟨by decide, by decide, by decide, by decide, by decide,
    ((nv_plist_read_no_count (nv_num.ops nv_u32) uint16_t (by decide) plist_empty
      (by decide) (by decide) (by decide)).1 (istream.good []) (by decide)).1⟩

/-- Counterexample to C14 as stated: the fresh empty list reads from a stream at
end-of-data; no error is raised, the count is 0, and `is_set()` is false afterwards. -/
theorem nv_plist_read_eof_counterexample :
    (nv_array_generic.read (nv_num.ops nv_u32) uint16_t true plist_empty
      (istream.good [])).2.2 = none ∧
    (nv_array_generic.read (nv_num.ops nv_u32) uint16_t true plist_empty
      (istream.good [])).1.m_count = 0 ∧
    (nv_array_generic.read (nv_num.ops nv_u32) uint16_t true plist_empty
      (istream.good [])).1.m_set = false ∧
    (nv_array_generic.read (nv_num.ops nv_u32) uint16_t true plist_empty
      (istream.good [0, 0])).1.m_set = true := by
  decide

/-! ## Theorems: fixed arrays -/

/-- C15: constructing a fixed array fails with the invalid-argument error exactly when the
count is 0, whereas a list may be constructed with count 0; for a count `n > 0` the
constructed array has `definition()` of exactly `n` elements, each a fresh element of the
element type, named by the decimal texts of `0`, ..., `n - 1` in that order. -/
theorem nv_array_construct_spec {α : Type} (E : nv_val_ops α) :
    (∀ n : Nat, nv_array_generic.construct E false n
        = Except.error nv_error.invalid_argument ↔ n = 0) ∧
    (∃ a, nv_array_generic.construct E true 0 = Except.ok a ∧ a.m_count = 0) ∧
    (∀ n : Nat, 0 < n → ∃ a, nv_array_generic.construct E false n = Except.ok a ∧
      a.m_count = n ∧ (nv_array_generic.definition E a).length = n ∧
      (∀ i : Nat, i < n →
        (nv_array_generic.definition E a)[i]? = some (std_to_string (i : Int), E.make)) ∧
      (nv_array_generic.definition E a).map Prod.fst
        = (List.range n).map (fun (i : Nat) => std_to_string (i : Int))) ∧
    (nv_array_generic.definition (nv_num.ops nv_u32) array_three).map Prod.fst
      = ["0", "1", "2"] := by
  refine ⟨?_, ?_, ?_, by decide⟩
  · intro n
    unfold nv_array_generic.construct
    by_cases h0 : n = 0
    · simp [h0]
    · simp [h0]
  · refine ⟨⟨0, [], 0 * E.bytes E.make, 0, false⟩, ?_, rfl⟩
    simp [nv_array_generic.construct]
  · intro n hn
    have h0 : n ≠ 0 := by omega
    refine ⟨⟨n, [], n * E.bytes E.make, 0, false⟩, ?_, rfl, ?_, ?_, ?_⟩
    · simp [nv_array_generic.construct, h0]
    · simp [nv_array_generic.definition]
    · intro i hi
      simp [nv_array_generic.definition, List.getElem?_range hi, hi]
    · simp [nv_array_generic.definition]

theorem compound_set_length {α : Type} (E : nv_val_ops α) (parts : List (String × α))
    (name val : String) : (nv_compound.set E parts name val).1.length = parts.length := by
  induction parts with
  | nil => rfl
  | cons p rest ih =>
    rw [compound_set_cons]
    by_cases hp : p.1 = name
    · simp [hp]
    · simp [hp, ih]

theorem read_parts_length {α : Type} (E : nv_val_ops α) (tolerant : Bool) (width : Nat)
    (parts : List (String × α)) (b : Nat) (st : Bool) (is : istream) :
    (nv_compound.read_parts E tolerant width parts b st is).parts.length = parts.length := by
  induction parts generalizing b st is with
  | nil => rfl
  | cons p rest ih =>
    rw [nv_compound.read_parts]
    by_cases hw : width ≠ 0 ∧ b + E.bytes p.2 > width
    · rw [if_pos hw]
    · rw [if_neg hw]
      by_cases hf : (E.read p.2 is).2.fail = true
      · rw [if_pos hf]
        rfl
      · rw [if_neg hf]
        simp [ih]

theorem definition_length {α : Type} (E : nv_val_ops α) (a : nv_array_generic α) :
    (nv_array_generic.definition E a).length = a.m_count := by
  simp [nv_array_generic.definition]

theorem init_length {α : Type} (parts defn : List (String × α))
    (h : parts = [] ∨ parts.length = defn.length) :
    (nv_compound.init parts defn false).length = defn.length := by
  unfold nv_compound.init
  rcases h with h | h
  · simp [h]
  · by_cases he : parts.isEmpty = true
    · simp [he]
    · simp [he, h]

/-- C16: a fixed array (`L = false`) with count `n`, declared width `n` times the element
size, and its parts list either not yet built or holding the `n` elements. `read` leaves
the count `n`, the declared width as it was (the embedding passes the width 0 to
`nv_compound::read` and keeps the member, which is what zeroing and restoring amounts to)
and `n` parts; `set` with any name and text, whether it succeeds or fails, leaves count,
width and the number of parts as they were, and with the name `-1` or with an index of
`n` or more it leaves the whole object as it was. `write` is a const method. -/
theorem nv_array_fixed_invariant {α : Type} (E : nv_val_ops α) (I : NumType)
    (a : nv_array_generic α) (n : Nat) (hcount : a.m_count = n)
    (hwidth : a.m_width = n * E.bytes E.make)
    (hparts : a.m_parts = [] ∨ a.m_parts.length = n) :
    (∀ is : istream,
      (nv_array_generic.read E I false a is).1.m_count = n ∧
      (nv_array_generic.read E I false a is).1.m_width = n * E.bytes E.make ∧
      (nv_array_generic.read E I false a is).1.m_parts.length = n) ∧
    (∀ name val : String,
      (nv_array_generic.set E I false a name val).1.m_count = n ∧
      (nv_array_generic.set E I false a name val).1.m_width = n * E.bytes E.make ∧
      (nv_array_generic.set E I false a name val).1.m_parts.length = a.m_parts.length) ∧
    (I.signed = false → ∀ val : String,
      (nv_array_generic.set E I false a "-1" val).1 = a) ∧
    (∀ (name val : String) (index : Int), lexical_cast I name 10 = some index →
      (n : Int) ≤ index → (nv_array_generic.set E I false a name val).1 = a) := by
  refine ⟨?_, ?_, ?_, ?_⟩
  · intro is
    have hlen : ∀ b : nv_array_generic α, b.m_count = n →
        (nv_compound.init a.m_parts (nv_array_generic.definition E b) false).length = n := by
      intro b hb
      rw [init_length _ _ (by rw [definition_length, hb]; exact hparts), definition_length, hb]
    unfold nv_array_generic.read
    simp only [Bool.false_eq_true, false_and, if_false, Int.toNat_natCast]
    split
    · exact ⟨hcount, hwidth, by
        simp only [nv_compound.read, read_parts_length]
        exact hlen _ hcount⟩
    · exact ⟨hcount, hwidth, by
        simp only [nv_compound.read, read_parts_length]
        exact hlen _ hcount⟩
  · intro name val
    unfold nv_array_generic.set
    simp only [Bool.false_eq_true, false_and, if_false]
    split
    · simp [hcount, hwidth, compound_set_length]
    · split <;> simp [hcount, hwidth]
  · intro hu val
    unfold nv_array_generic.set
    simp only [lexical_cast_minus_one I hu, Bool.false_eq_true, false_and, if_false]
    split <;> rfl
  · intro name val index hidx hge
    unfold nv_array_generic.set
    have hnot : ¬ index < (a.m_count : Int) := by rw [hcount]; omega
    simp only [hidx, hnot, decide_False, Bool.false_eq_true, false_and, if_false]
    split <;> rfl

/-- Witness for C16: the fixed array of three `nv_u32` elements reads twelve bytes. -/
theorem nv_array_fixed_invariant_witness :
    array_three.m_count = 3 ∧
    array_three.m_width = 3 * (nv_num.ops nv_u32).bytes (nv_num.ops nv_u32).make ∧
    (array_three.m_parts = [] ∨ array_three.m_parts.length = 3) ∧
    (nv_array_generic.read (nv_num.ops nv_u32) uint64_t false array_three
      (istream.good [0, 0, 0, 1, 0, 0, 0, 2, 0, 0, 0, 3])).1.m_count = 3 ∧
    (nv_array_generic.read (nv_num.ops nv_u32) uint64_t false array_three
      (istream.good [0, 0, 0, 1, 0, 0, 0, 2, 0, 0, 0, 3])).1.m_width
        = 3 * (nv_num.ops nv_u32).bytes (nv_num.ops nv_u32).make ∧
    (nv_array_generic.read (nv_num.ops nv_u32) uint64_t false array_three
      (istream.good [0, 0, 0, 1, 0, 0, 0, 2, 0, 0, 0, 3])).1.m_parts.length = 3 :=
  ⟨by decide, by decide, by decide,
    (nv_array_fixed_invariant (nv_num.ops nv_u32) uint64_t array_three 3 (by decide)
      (by decide) (by decide)).1 (istream.good [0, 0, 0, 1, 0, 0, 0, 2, 0, 0, 0, 3])⟩

/-! ## Theorems: the set flag and the rendering of a number -/

/-- The leaf types keep the set flag: no `parse` or `read` that the header defines for
`nv_num`, `nv_enum` or `nv_bitmask` reverts a set value to unset. If `is_set()` was true
before the call it is true after it, whether the call succeeded or failed (an enum or
bitmask reads through `nv_num::read` of its base). -/
theorem leaf_set_flag_monotonic :
    (∀ (P : NumParams) (x : nv_num) (s : String),
      x.is_set = true → (nv_num.parse P x s).1.is_set = true) ∧
    (∀ (P : NumParams) (x : nv_num) (is : istream),
      x.is_set = true → (nv_num.read P x is).1.is_set = true) ∧
    (∀ (P : NumParams) (e : nv_enum_bitmask) (s : String) (r : nv_enum_bitmask × Bool),
      nv_enum.parse P e s = some r → e.base.is_set = true → r.1.base.is_set = true) ∧
    (∀ (P : NumParams) (e : nv_enum_bitmask) (s : String) (r : nv_enum_bitmask × Bool),
      nv_bitmask.parse P e s = some r → e.base.is_set = true → r.1.base.is_set = true) ∧
    (∀ (P : NumParams) (e : nv_enum_bitmask) (is : istream),
      e.base.is_set = true → (nv_num.read P e.base is).1.is_set = true) := by
  have hnum_read : ∀ (P : NumParams) (x : nv_num) (is : istream),
      x.is_set = true → (nv_num.read P x is).1.is_set = true := by
    intro P x is hx
    unfold nv_num.read
    simp only
    by_cases hf : (nv_num.read_num P is x.m_val).1.fail = true
    · rw [if_pos hf]
      exact hx
    · rw [if_neg hf]
      rfl
  refine ⟨?_, hnum_read, ?_, ?_, fun P e is h => hnum_read P e.base is h⟩
  · intro P x s hx
    unfold nv_num.parse
    split
    · split
      · exact hx
      · rfl
    · exact hx
  · intro P e s r hr he
    unfold nv_enum.parse at hr
    split at hr
    · cases hr; rfl
    · cases hr; exact he
    · cases hr
  · intro P e s r hr he
    unfold nv_bitmask.parse at hr
    split at hr
    · cases hr; exact he
    · split at hr
      · split at hr
        · cases hr
        · cases hr; exact he
        · split at hr
          · cases hr; rfl
          · cases hr; rfl
      · split at hr
        · cases hr
        · cases hr; exact he
        · cases hr; rfl

/-- C18: the compact rendering of an `nv_num` is the decimal text of the value, or `0x`
followed by its hex digits when the hex flag is set, without any annotation; the pretty
rendering is the compact one followed by ` (out of range)` exactly when the value is
below `Min` or above `Max`, and is the compact one otherwise. -/
theorem nv_num_to_string_spec (to_hex : Int → String) (P : NumParams) (x : nv_num) :
    nv_num.to_string to_hex P x false
      = (if x.m_hex = true then "0x" ++ to_hex x.m_val else std_to_string x.m_val) ∧
    nv_num.to_str to_hex P x = nv_num.to_string to_hex P x false ∧
    (nv_num.to_string to_hex P x true = nv_num.to_string to_hex P x false ++ " (out of range)"
      ↔ (x.m_val < P.Min ∨ x.m_val > P.Max)) ∧
    (nv_num.to_string to_hex P x true = nv_num.to_string to_hex P x false
      ↔ ¬ (x.m_val < P.Min ∨ x.m_val > P.Max)) := by
  have hne : ∀ s : String, s ++ " (out of range)" ≠ s := by
    intro s h
    have := congrArg String.length h
    rw [String.length_append] at this
    have h15 : " (out of range)".length = 15 := by decide
    omega
  have hcompact : nv_num.to_string to_hex P x false
      = (if x.m_hex = true then "0x" ++ to_hex x.m_val else std_to_string x.m_val) := by
    unfold nv_num.to_string
    cases x.m_hex <;> simp
  refine ⟨hcompact, rfl, ?_, ?_⟩
  · by_cases hr : x.m_val < P.Min ∨ x.m_val > P.Max
    · simp only [hr, iff_true]
      unfold nv_num.to_string
      simp [hr]
    · simp only [hr, iff_false]
      have hp : nv_num.to_string to_hex P x true = nv_num.to_string to_hex P x false := by
        unfold nv_num.to_string
        simp [hr]
      rw [hp]
      exact fun h => hne _ h.symm
  · by_cases hr : x.m_val < P.Min ∨ x.m_val > P.Max
    · simp only [hr, not_true_eq_false, iff_false]
      have hp : nv_num.to_string to_hex P x true
          = nv_num.to_string to_hex P x false ++ " (out of range)" := by
        unfold nv_num.to_string
        simp [hr]
      rw [hp]
      exact hne _
    · simp only [hr, not_false_eq_true, iff_true]
      unfold nv_num.to_string
      simp [hr]

/-! ## Theorems: vec index and bit position -/

/-- C19, as the code has it: in a bitmask over a storage type of at most 32 bits, built
from a vec table that the constructor accepted, an index `i` below the bit width whose
name is non-empty, does not begin with `+` or `-` and differs from all names at lower
indices is the bit position: `parse(name)` stores the value with exactly bit `i` set,
`parse("+" + name)` sets bit `i` in the current value and leaves the other bits, and a
value with only bit `i` set renders as the name. -/
theorem nv_bitmask_vec_index_is_bit (to_hex : Int → String) (P : NumParams)
    (hT : 0 < P.T.bytes) (h4 : P.T.bytes ≤ 4) (e : nv_enum_bitmask) (hmap : e.m_map = [])
    (hvec : (e.m_vec.length : Int) ≤ P.T.limits_max) (i : Nat) (hi : i < P.T.bits)
    (name : String) (hname : e.m_vec[i]? = some name) (hne : name ≠ "")
    (hplus : name.data.head? ≠ some '+') (hminus : name.data.head? ≠ some '-')
    (hlow : ∀ j, j < i → e.m_vec[j]? ≠ some name) :
    (∀ k, (P.T.toRaw (P.T.ofRaw (2 ^ i))).testBit k = decide (i = k)) ∧
    nv_bitmask.parse P e name = some (e.assign (P.T.ofRaw (2 ^ i)), true) ∧
    (∃ e1, nv_bitmask.parse P e ("+" ++ name) = some (e1, true) ∧
      ∀ k, (P.T.toRaw e1.base.num).testBit k
        = ((P.T.toRaw e.base.num).testBit k || decide (i = k))) ∧
    nv_bitmask.to_str to_hex P (e.assign (P.T.ofRaw (2 ^ i))) = some name := by
  have hlt : (2 : Nat) ^ i < 2 ^ P.T.bits := Nat.pow_lt_pow_right (by decide) hi
  have hraw : P.T.toRaw (P.T.ofRaw (2 ^ i)) = 2 ^ i := toRaw_ofRaw P.T _ hlt
  have hres := str_to_num_vec_bit P hT h4 e hvec i hi name hname hlow
  refine ⟨?_, bitmask_parse_plain P e name _ hres hne hplus hminus, ?_, ?_⟩
  · intro k
    rw [hraw, Nat.testBit_two_pow]
  · refine ⟨_, bitmask_parse_plus P e name _ hres, ?_⟩
    intro k
    have := testBit_bit_or P.T e.base.m_val (P.T.ofRaw (2 ^ i)) k
    rw [hraw, Nat.testBit_two_pow] at this
    exact this
  · rw [bitmask_to_str_single_bit to_hex P hT h4 (e.assign (P.T.ofRaw (2 ^ i))) hvec i hi rfl]
    have hbn : nv_bitmask.spec_bit_name P (e.assign (P.T.ofRaw (2 ^ i))) i = name := by
      unfold nv_bitmask.spec_bit_name nv_enum_bitmask.assign
      simp only [hmap, ne_eq, not_true_eq_false, if_false]
      rw [List.getD_eq_getElem?_getD, hname]
      rfl
    unfold nv_bitmask.spec_bit_piece
    rw [hbn, if_pos hne]

/-- Witness for the amended C19: the flag `B` at index 1 of the two-flag bitmask. -/
theorem nv_bitmask_vec_index_is_bit_witness :
    0 < nv_u8.T.bytes ∧ nv_u8.T.bytes ≤ 4 ∧ bitmask_AB.m_map = [] ∧
    bitmask_AB.m_vec[1]? = some "B" ∧
    nv_bitmask.parse nv_u8 bitmask_AB "B"
      = some (bitmask_AB.assign (nv_u8.T.ofRaw (2 ^ 1)), true) ∧
    nv_bitmask.to_str (fun _ => "02") nv_u8 (bitmask_AB.assign (nv_u8.T.ofRaw (2 ^ 1)))
      = some "B" :=
  ⟨by decide, by decide, by decide, by decide,
    (nv_bitmask_vec_index_is_bit (fun _ => "02") nv_u8 (by decide) (by decide) bitmask_AB
      (by decide) (by decide) 1 (by decide) "B" (by decide) (by decide) (by decide)
      (by decide) (by decide)).2.1,
    (nv_bitmask_vec_index_is_bit (fun _ => "02") nv_u8 (by decide) (by decide) bitmask_AB
      (by decide) (by decide) 1 (by decide) "B" (by decide) (by decide) (by decide)
      (by decide) (by decide)).2.2.2⟩

/-- Counterexample to C19 as stated: the constructor of `nv_bitmask<nv_u8>` accepts a vec
table of nine names; the name `f8` at index 8 is non-empty and new, yet `parse("f8")`
stores 0 (`1 << 8` does not fit the storage type), `parse("+f8")` leaves the value 0, and
no value of the type has bit 8. A name that begins with `-` is read as a delta: on the
accepted table with the single name `-A`, `parse("-A")` returns false. -/
theorem nv_bitmask_vec_index_counterexample :
    nv_bitmask.of_vec nv_u8 "" names_nine = Except.ok bitmask_nine ∧
    bitmask_nine.m_vec[8]? = some "f8" ∧
    nv_bitmask.parse nv_u8 bitmask_nine "f8" = some (bitmask_nine.assign 0, true) ∧
    nv_bitmask.parse nv_u8 bitmask_nine "+f8" = some (bitmask_nine.assign 0, true) ∧
    nv_bitmask.of_vec nv_u8 "" ["-A"] = Except.ok ⟨nv_num.mk_default false, "bitmask", [], ["-A"]⟩ ∧
    nv_bitmask.parse nv_u8 bitmask_dash "-A" = some (bitmask_dash, false) := by
  decide

/-! ## Theorems: nv_ip, operator!=, bounds of the table lookup, nv_version, placeholders -/

/-- C20 at a valid address: `nv_ip<N>::parse` returns the result of `inet_pton` and never
assigns `m_set`, so whatever the text, `is_set()` after the call is what it was before; an
unset `nv_ip<4>` that parses `192.168.0.1` returns true, holds the four bytes and is still
not set. -/
theorem nv_ip_parse_leaves_unset :
    (∀ (inet_pton : String → Option (List Nat)) (x : nv_ip) (s : String),
      (nv_ip.parse inet_pton x s).1.is_set = x.is_set) ∧
    nv_ip.parse inet_pton_sample ip4_unset "192.168.0.1"
      = (⟨[192, 168, 0, 1], false⟩, true) ∧
    (nv_ip.parse inet_pton_sample ip4_unset "192.168.0.1").1.is_set = false := by
  refine ⟨?_, by decide, by decide⟩
  intro f x s
  unfold nv_ip.parse
  cases f s <;> rfl

/-- C21 on the operator as written: `a != b` returns `m_val == other.m_val`, so it is true
exactly when the stored numbers are equal: false for 1 and 2, true for 1 and 1. -/
theorem nv_num_operator_ne_inverted :
    (∀ a b : nv_num, nv_num.operator_ne a b = true ↔ a.m_val = b.m_val) ∧
    nv_num.operator_ne (nv_num.mk_val 1 false) (nv_num.mk_val 2 false) = false ∧
    nv_num.operator_ne (nv_num.mk_val 1 false) (nv_num.mk_val 1 false) = true := by
  refine ⟨?_, by decide, by decide⟩
  intro a b
  simp [nv_num.operator_ne]

/-- C22 at a negative stored value: an `nv_enum<nv_i32>` with a vec table of three names
holding -5 passes the test `num < num_type(m_vec.size())`, so `num_to_str` subscripts the
vector with -5, outside `[0, 3)`, and `to_string` has no defined result; for the values 3
and 7, at or above the size, no entry is read and the result is the type name with the
value. -/
theorem nv_enum_lookup_negative_index :
    nv_i32.T.inRange enum_i32_neg.base.m_val ∧
    nv_enum_bitmask.num_to_str nv_i32 enum_i32_neg (-5) false false = none ∧
    nv_enum.to_string nv_i32 enum_i32_neg false = none ∧
    nv_enum.to_string nv_i32 (enum_i32_neg.assign 3) false = some "e(3)" ∧
    nv_enum.to_string nv_i32 (enum_i32_neg.assign 7) false = some "e(7)" ∧
    nv_enum.to_string nv_i32 (enum_i32_neg.assign 2) false = some "c" := by
  decide

/-- C24 at the empty name: `str_to_num` compares the text with every vec entry, the empty
placeholders included, so `nv_enum::parse("")` returns true and stores the index of the
placeholder, and `nv_bitmask::parse("+")` and `parse("-")` return true and set or clear
the bit of the placeholder; only `nv_bitmask::parse("")` returns false. -/
theorem nv_enum_bitmask_placeholder_matched :
    nv_enum.parse nv_u8 enum_placeholder "" = some (enum_placeholder.assign 0, true) ∧
    (enum_placeholder.assign 0).base.is_set = true ∧ enum_placeholder.base.is_set = false ∧
    nv_bitmask.parse nv_u8 bitmask_placeholder "+" = some (bitmask_placeholder.assign 1, true) ∧
    nv_bitmask.parse nv_u8 (bitmask_placeholder.assign 1) "-"
      = some (bitmask_placeholder.assign 0, true) ∧
    nv_bitmask.parse nv_u8 bitmask_placeholder "" = some (bitmask_placeholder, false) := by
  decide

theorem version_raw (maj min : Nat) (hmaj : maj < 256) (hmin : min < 256) :
    uint16_t.toRaw (nv_version.of_parts maj min).m_val = 256 * maj + min := by
  have hor : maj <<< 8 ||| min = 256 * maj + min := by
    rw [Nat.shiftLeft_eq, Nat.mul_comm]
    exact (Nat.mul_add_lt_is_or (i := 8) hmin maj).symm
  have hlt : 256 * maj + min < 2 ^ uint16_t.bits := by
    have : uint16_t.bits = 16 := rfl
    rw [this]
    omega
  have hw : uint16_t.wrap (((maj <<< 8 ||| min : Nat)) : Int) = ((256 * maj + min : Nat) : Int) := by
    rw [hor]
    refine wrap_small uint16_t (by decide) _ ?_
    have : uint16_t.limits_max = 65535 := by decide
    rw [this]
    omega
  show uint16_t.toRaw (uint16_t.wrap (((maj <<< 8 ||| min : Nat)) : Int)) = _
  rw [hw]
  unfold NumType.toRaw
  have hlt' : ((256 * maj + min : Nat) : Int) < (2 : Int) ^ uint16_t.bits := by
    exact_mod_cast hlt
  rw [Int.emod_eq_of_lt (by omega) hlt', Int.toNat_natCast]

theorem version_val (maj min : Nat) (hmaj : maj < 256) (hmin : min < 256) :
    (nv_version.of_parts maj min).m_val = ((256 * maj + min : Nat) : Int) := by
  have hor : maj <<< 8 ||| min = 256 * maj + min := by
    rw [Nat.shiftLeft_eq, Nat.mul_comm]
    exact (Nat.mul_add_lt_is_or (i := 8) hmin maj).symm
  show uint16_t.wrap (((maj <<< 8 ||| min : Nat)) : Int) = _
  rw [hor]
  refine wrap_small uint16_t (by decide) _ ?_
  have : uint16_t.limits_max = 65535 := by decide
  rw [this]
  omega

/-- C23: for bytes `maj`, `min` the version built by `nv_version(maj, min)` reports
`major() = maj` and `minor() = min` and renders as the decimal text of `maj`, a dot and
the decimal text of `min`; `<` between two versions holds exactly when the pair
`(maj1, min1)` is lexicographically smaller than `(maj2, min2)`, and `==` exactly when
both components are equal. -/
theorem nv_version_spec (maj1 min1 maj2 min2 : Nat) (h1 : maj1 < 256) (h2 : min1 < 256)
    (h3 : maj2 < 256) (h4 : min2 < 256) :
    nv_version.major (nv_version.of_parts maj1 min1) = (maj1 : Int) ∧
    nv_version.minor (nv_version.of_parts maj1 min1) = (min1 : Int) ∧
    nv_version.to_string (nv_version.of_parts maj1 min1)
      = std_to_string (maj1 : Int) ++ "." ++ std_to_string (min1 : Int) ∧
    (nv_version.operator_lt (nv_version.of_parts maj1 min1) (nv_version.of_parts maj2 min2)
      = true ↔ (maj1 < maj2 ∨ (maj1 = maj2 ∧ min1 < min2))) ∧
    (nv_version.operator_eq (nv_version.of_parts maj1 min1) (nv_version.of_parts maj2 min2)
      = true ↔ (maj1 = maj2 ∧ min1 = min2)) := by
  have hraw := version_raw maj1 min1 h1 h2
  have hv1 := version_val maj1 min1 h1 h2
  have hv2 := version_val maj2 min2 h3 h4
  have hshr : (256 * maj1 + min1) >>> 8 = maj1 := by
    rw [Nat.shiftRight_eq_div_pow]
    omega
  have hand : (256 * maj1 + min1) &&& 255 = min1 := by
    have := Nat.and_pow_two_sub_one_eq_mod (256 * maj1 + min1) 8
    simp only [Nat.reducePow, Nat.add_one_sub_one] at this
    rw [this]
    omega
  have h8 : uint8_t.limits_max = 255 := by decide
  refine ⟨?_, ?_, ?_, ?_, ?_⟩
  · unfold nv_version.major
    rw [hraw, hshr]
    exact wrap_small uint8_t (by decide) _ (by rw [h8]; omega)
  · unfold nv_version.minor
    rw [hraw, hand]
    exact wrap_small uint8_t (by decide) _ (by rw [h8]; omega)
  · unfold nv_version.to_string
    rw [hraw, hshr, hand]
  · unfold nv_version.operator_lt
    rw [hv1, hv2]
    simp only [decide_eq_true_eq]
    constructor
    · intro h
      have h' : 256 * maj1 + min1 < 256 * maj2 + min2 := by exact_mod_cast h
      omega
    · intro h
      have h' : 256 * maj1 + min1 < 256 * maj2 + min2 := by omega
      exact_mod_cast h'
  · unfold nv_version.operator_eq
    rw [hv1, hv2]
    simp only [decide_eq_true_eq]
    constructor
    · intro h
      have h' : 256 * maj1 + min1 = 256 * maj2 + min2 := by exact_mod_cast h
      omega
    · intro h
      have h' : 256 * maj1 + min1 = 256 * maj2 + min2 := by omega
      exact_mod_cast h'

/-- Witness for C23: the versions 1.2 and 1.10. -/
theorem nv_version_spec_witness :
    (1 : Nat) < 256 ∧ (2 : Nat) < 256 ∧ (10 : Nat) < 256 ∧
    nv_version.major (nv_version.of_parts 1 2) = ((1 : Nat) : Int) ∧
    nv_version.minor (nv_version.of_parts 1 2) = ((2 : Nat) : Int) ∧
    nv_version.to_string (nv_version.of_parts 1 2)
      = std_to_string ((1 : Nat) : Int) ++ "." ++ std_to_string ((2 : Nat) : Int) ∧
    (nv_version.operator_lt (nv_version.of_parts 1 2) (nv_version.of_parts 1 10)
      = true ↔ ((1 : Nat) < 1 ∨ ((1 : Nat) = 1 ∧ (2 : Nat) < 10))) :=
  ⟨by decide, by decide, by decide,
    (nv_version_spec 1 2 1 10 (by decide) (by decide) (by decide) (by decide)).1,
    (nv_version_spec 1 2 1 10 (by decide) (by decide) (by decide) (by decide)).2.1,
    (nv_version_spec 1 2 1 10 (by decide) (by decide) (by decide) (by decide)).2.2.1,
    (nv_version_spec 1 2 1 10 (by decide) (by decide) (by decide) (by decide)).2.2.2.1⟩

end bcm2cfg
